import Mathlib

/-!
Verification of the efm-langserver core (tecfu/efm-langserver) against its
natural-language specification.  All definitions below are shallow embeddings
of the Go source under `src/`:

* `src/langserver/handler.go`        — lint engine, debouncer, command templates
* `src/langserver/handle_text_document_formatting.go` — format engine
* `src/unnamed/part_001`             — alternate handler with `lint-jq` support
* `src/unnamed/part_003`             — `convertRowColToIndex`, `CheckAndInstallTool`
* `src/main.go`                      — CLI entry (`--check-deps` / `--install-deps`)

External effects (child processes, the filesystem, the errorformat scanner of
the reviewdog library and the gojq engine) are modelled as explicit inputs
(oracles): a process run becomes a `ProcResult`, the scanner's output becomes a
`List Entry`, the jq filter's emitted values become a `List JSONValue`.
The embedding targets the linux branches of the source
(`runtime.GOOS != "windows"`).
-/

namespace Efm

/-- LSP document URI (Go `DocumentURI`), kept as a plain string. -/
abbrev DocumentURI := String

/-- LSP position (zero based).  Go `Position` has `int` fields; `lintOffset`
can drive the line below zero, so both fields are integers. -/
structure Position where
  line : Int
  character : Int
deriving DecidableEq, Repr

/-- LSP range. -/
structure Range where
  start : Position
  «end» : Position
deriving DecidableEq, Repr

/-- LSP diagnostic as built by the lint engine (Go `Diagnostic`). -/
structure Diagnostic where
  range : Range
  severity : Int
  code : Option String
  message : String
  source : Option String
deriving DecidableEq, Repr

/-- Open document (Go `File` in handler.go). -/
structure File where
  languageID : String
  text : String
  version : Int
deriving DecidableEq, Repr

/-- Result of running a child process: its exit code and combined output.
Go's `cmd.Run()` / `cmd.CombinedOutput()` return `err == nil` iff the exit
code is zero; a context-cancelled (killed) child reports exit code `-1`
(see `succeeded` in handler.go). -/
structure ProcResult where
  exitCode : Int
  output : String
deriving DecidableEq, Repr

/-! ### Go string primitives used by the source -/

/-- Whitespace recognised by Go's `unicode.IsSpace` in the Latin-1 range,
used by `bytes.TrimSpace`. -/
def goIsSpace (c : Char) : Bool :=
  c = ' ' ∨ c = '\t' ∨ c = '\n' ∨ c = (Char.ofNat 11) ∨ c = (Char.ofNat 12) ∨
  c = '\r' ∨ c = (Char.ofNat 0x85) ∨ c = (Char.ofNat 0xA0)

/-- Go `bytes.TrimSpace` / `strings.TrimSpace`. -/
def goTrimSpace (s : String) : String :=
  String.mk (((s.data.dropWhile goIsSpace).reverse.dropWhile goIsSpace).reverse)

/-- ASCII lowering of one character, as done by Go's `strings.ToLower`
for the strings in scope (severity names are ASCII). -/
def asciiLowerChar (c : Char) : Char :=
  if 'A' ≤ c ∧ c ≤ 'Z' then Char.ofNat (c.toNat + 32) else c

/-- Go `strings.ToLower`, modelled on ASCII strings. -/
def asciiLower (s : String) : String :=
  String.mk (s.data.map asciiLowerChar)

/-- Split a character list at newlines; Go `strings.Split(s, "\n")`. -/
def splitOnNl : List Char → List (List Char)
  | [] => [[]]
  | '\n' :: rest => [] :: splitOnNl rest
  | c :: rest =>
    match splitOnNl rest with
    | h :: t => (c :: h) :: t
    | [] => [[c]]

/-- Split at `'/'`, helper for `goClean`. -/
def splitOnSlash : List Char → List (List Char)
  | [] => [[]]
  | '/' :: rest => [] :: splitOnSlash rest
  | c :: rest =>
    match splitOnSlash rest with
    | h :: t => (c :: h) :: t
    | [] => [[c]]

/-- Element loop of Go `path/filepath.Clean`: drop `""`/`"."`, resolve `".."`. -/
def cleanElems (rooted : Bool) : List String → List String → List String
  | [], out => out
  | e :: rest, out =>
    if e = "" ∨ e = "." then cleanElems rooted rest out
    else if e = ".." then
      match out.getLast? with
      | some l =>
        if l = ".." then cleanElems rooted rest (out ++ [".."])
        else cleanElems rooted rest out.dropLast
      | none =>
        if rooted then cleanElems rooted rest out
        else cleanElems rooted rest [".."]
    else cleanElems rooted rest (out ++ [e])

/-- Go `filepath.Clean` on slash-separated (unix) paths. -/
def goClean (p : String) : String :=
  if p = "" then "." else
  let rooted := p.data.head? = some '/'
  let elems := (splitOnSlash p.data).map String.mk
  let out := cleanElems rooted elems []
  let joined := String.intercalate "/" out
  if rooted then "/" ++ joined
  else if joined = "" then "." else joined

/-- Go `filepath.IsAbs` on unix. -/
def goIsAbs (p : String) : Bool := p.data.head? = some '/'

/-- Go `filepath.Join` of two elements (unix). -/
def goJoin (a b : String) : String :=
  if a = "" ∧ b = "" then ""
  else if a = "" then goClean b
  else if b = "" then goClean a
  else goClean (a ++ "/" ++ b)

/-- Go `filepath.ToSlash`; the identity on unix, where the separator is `'/'`. -/
def goToSlash (s : String) : String := s

/-- Go `filepath.FromSlash`; also the identity on unix. -/
def goFromSlash (s : String) : String := s

/-- Go `filepath.Abs` (modulo `Getwd` errors, which cannot occur here):
clean if absolute, otherwise join to the working directory. -/
def goAbs (cwd p : String) : String :=
  if goIsAbs p then goClean p else goJoin cwd p

/-- Reversed-scan helper for `goExt`: walking from the end of the path,
stop at the first `'.'` (returning the suffix) or at a separator. -/
def goExtRev : List Char → List Char → Option (List Char)
  | [], _ => none
  | c :: rest, acc =>
    if c = '/' then none
    else if c = '.' then some ('.' :: acc)
    else goExtRev rest (c :: acc)

/-- Go `filepath.Ext`: the suffix beginning at the final dot in the final
slash-separated element, or `""`. -/
def goExt (s : String) : String :=
  match goExtRev s.data.reverse [] with
  | some cs => String.mk cs
  | none => ""

/-- Go `strings.TrimPrefix`. -/
def goTrimPrefix (s pre : String) : String :=
  if pre.data.isPrefixOf s.data then String.mk (s.data.drop pre.data.length) else s

/-- Does `pat` occur as a contiguous sublist of `s`?
Go `strings.Contains`. -/
def containsSub (s pat : List Char) : Bool :=
  match s with
  | [] => pat.isEmpty
  | _ :: rest => pat.isPrefixOf s || containsSub rest pat

/-- Go `strings.Replace(s, pat, rep, -1)` for a non-empty pattern: replace
every (left-to-right, non-overlapping) occurrence.  All patterns substituted
by the source are non-empty.  The `fuel` argument only bounds the recursion
(each step consumes at least one character, so `s.length` always
suffices). -/
def replaceAllF (pat rep : List Char) : Nat → List Char → List Char
  | _, [] => []
  | 0, s => s
  | fuel + 1, c :: rest =>
    if pat.isPrefixOf (c :: rest) ∧ pat ≠ [] then
      rep ++ replaceAllF pat rep fuel (rest.drop (pat.length - 1))
    else
      c :: replaceAllF pat rep fuel rest

/-- `replaceAllF` with enough fuel for the whole string. -/
def replaceAll (pat rep s : List Char) : List Char :=
  replaceAllF pat rep s.length s

/-- String wrapper for `replaceAll`. -/
def goReplaceAll (s pat rep : String) : String :=
  String.mk (replaceAll pat.data rep.data s.data)

/-- Go map read with the zero-value default: `m[k]` on a
`map[string]string` yields `""` when `k` is absent.  Maps are modelled as
association lists with distinct keys. -/
def goMapGet (m : List (String × String)) (k : String) : String :=
  match m.find? (fun p => p.1 = k) with
  | some p => p.2
  | none => ""

/-- `url.URL{Scheme: "file", Path: filepath.ToSlash(path)}.String()` as built
by `toURI` in handler.go (linux: no drive-letter prefix).  An empty path
yields the bare `"file:"` — the quirk the `linter` goroutine remaps.  Paths in
scope contain no characters that URL-escaping would rewrite. -/
def toURIm (path : String) : DocumentURI :=
  if path = "" then "file:" else "file://" ++ goToSlash path

/-! ### `WordAt` (handler.go / part_001)

`WordAt` splits the text into lines, encodes the line as UTF-16 code units
and widens around the requested character using `unicodeclass.Is`. -/

/-- UTF-16 encoding of a rune sequence (`utf16.Encode`). -/
def utf16Encode (cs : List Char) : List Nat :=
  cs.flatMap fun c =>
    let n := c.toNat
    if n < 0x10000 then [n]
    else [0xD800 + (n - 0x10000) / 0x400, 0xDC00 + (n - 0x10000) % 0x400]

/-- UTF-16 decoding (`utf16.Decode`); unpaired surrogates become U+FFFD. -/
def utf16Decode : List Nat → List Char
  | [] => []
  | [u] =>
    if 0xD800 ≤ u ∧ u < 0xE000 then [Char.ofNat 0xFFFD] else [Char.ofNat u]
  | u :: u2 :: rest =>
    if 0xD800 ≤ u ∧ u < 0xDC00 then
      if 0xDC00 ≤ u2 ∧ u2 < 0xE000 then
        Char.ofNat (0x10000 + (u - 0xD800) * 0x400 + (u2 - 0xDC00)) :: utf16Decode rest
      else Char.ofNat 0xFFFD :: utf16Decode (u2 :: rest)
    else if 0xDC00 ≤ u ∧ u < 0xE000 then Char.ofNat 0xFFFD :: utf16Decode (u2 :: rest)
    else Char.ofNat u :: utf16Decode (u2 :: rest)

/-- `unicodeclass.Invalid`, the initial previous-class in `WordAt`. -/
def uclassInvalid : Int := -1

/-- `unicodeclass.Is` (mattn/go-unicodeclass), modelled on the character set
exercised here: blanks are class 0, ASCII letters and digits are word
characters (class 2), remaining ASCII (including `'_'`) is punctuation
(class 1), and code points ≥ 0x100 are lumped into class 2. -/
def goUnicodeClass (u : Nat) : Int :=
  if u = 0x20 ∨ u = 0x9 ∨ u = 0x0 then 0
  else if u < 0x100 then
    if (0x30 ≤ u ∧ u ≤ 0x39) ∨ (0x41 ≤ u ∧ u ≤ 0x5A) ∨ (0x61 ≤ u ∧ u ≤ 0x7A) then 2
    else 1
  else 2

/-- The scan loop of `WordAt` over the indexed UTF-16 units.  Mirrors the Go
loop: on a class change at `i ≤ pos.Character` move `prevPos`; past the
position, `'_'` is skipped without updating the previous class (`continue`),
any other change sets `currPos` and breaks. -/
def wordAtLoop (pc : Int) : List (Nat × Nat) → Nat → Int → Nat × Option Nat
  | [], prevPos, _ => (prevPos, none)
  | (i, u) :: rest, prevPos, prevCls =>
    let currCls := goUnicodeClass u
    if currCls ≠ prevCls then
      if (i : Int) ≤ pc then wordAtLoop pc rest i currCls
      else if u = '_'.toNat then wordAtLoop pc rest prevPos prevCls
      else (prevPos, some i)
    else wordAtLoop pc rest prevPos currCls

/-- `(*File).WordAt` from handler.go / part_001. -/
def File.WordAt (f : File) (pos : Position) : String :=
  let lines := splitOnNl f.text.data
  if pos.line < 0 ∨ (lines.length : Int) ≤ pos.line then ""
  else
    let line := lines.getD pos.line.toNat []
    let chars := utf16Encode line
    if pos.character < 0 ∨ (chars.length : Int) < pos.character then ""
    else
      let scanned := wordAtLoop pos.character chars.enum 0 uclassInvalid
      let prevPos := scanned.1
      let currPos := scanned.2.getD chars.length
      String.mk (utf16Decode ((chars.drop prevPos).take (currPos - prevPos)))

/-! ### Tool availability probes

`isToolInstalled` (handler.go:349) runs the check through `sh -c` and looks
only at `cmd.Run()`'s error; `CheckAndInstallTool` (part_003:38) additionally
requires non-blank combined output. -/

/-- handler.go `isToolInstalled`: `cmd.Run()` succeeded, i.e. the probe
command (whose run result is `r`) exited zero. -/
def isToolInstalled (_command : String) (r : ProcResult) : Bool :=
  r.exitCode = 0

/-- handler.go `installTool`: the error of running the install command. -/
def installTool (_command : String) (r : ProcResult) : Bool :=
  r.exitCode = 0

/-- The recipe fields consumed by `CheckAndInstallTool`.  The `Language`
struct carrying `checkInstalled` / `install` is declared outside `src/`;
these two fields are modelled from the spec (§3 availability: `checkInstalled`,
`install`) and from their uses in part_003 and main.go. -/
structure ToolProbeCfg where
  checkInstalled : String
  install : String
deriving DecidableEq, Repr

/-- part_003 `CheckAndInstallTool`, with the three child-process runs it may
perform (check, install, re-check) supplied as oracles.  Returns `.ok` when
the tool is (finally) judged installed. -/
def CheckAndInstallTool (cfg : ToolProbeCfg) (toolName : String)
    (isInstallDeps : Bool) (checkRes installRes recheckRes : ProcResult) :
    Except String Unit :=
  if cfg.checkInstalled = "" then .ok ()
  else if checkRes.exitCode ≠ 0 ∨ goTrimSpace checkRes.output = "" then
    if cfg.install ≠ "" ∧ isInstallDeps then
      if installRes.exitCode ≠ 0 then
        .error ("failed to install " ++ toolName)
      else if recheckRes.exitCode ≠ 0 ∨ goTrimSpace recheckRes.output = "" then
        .error ("tool " ++ toolName ++ " still not found after installation")
      else .ok ()
    else if cfg.install ≠ "" ∧ ¬ isInstallDeps then
      .error ("tool " ++ toolName ++ " not found. Run with --install-deps to install.")
    else
      .error ("tool " ++ toolName ++ " not found and no install command specified")
  else .ok ()

/-! ### Lint engine data model (handler.go) -/

/-- The fields of the `Language` recipe consumed by the lint path.
`Prefix` is renamed `prefixStr`.  `rootMarkers` matching reads the
filesystem, so each run carries its `matchRootPath` result as an oracle
(see `CfgRun`). -/
structure LintCfg where
  prefixStr : String
  lintStdin : Bool
  lintOffset : Int
  lintOffsetColumns : Int
  lintCommand : String
  lintIgnoreExitCode : Bool
  lintCategoryMap : List (String × String)
  lintSource : String
  lintSeverity : Int
  lintWorkspace : Bool
  lintAfterOpen : Bool
  lintOnSave : Bool
  requireMarker : Bool
  checkInstall : String
  doInstall : String
deriving DecidableEq, Repr

/-- A parsed errorformat entry (`errorformat.Entry` of the reviewdog
library, an external collaborator): only the fields the engine reads. -/
structure Entry where
  filename : String
  lnum : Int
  col : Int
  nr : Int
  typ : Char
  text : String
  valid : Bool
deriving DecidableEq, Repr

/-- handler.go `isFilename`: stdin sentinels. -/
def isFilenameSentinel (s : String) : Bool :=
  s = "stdin" ∨ s = "-" ∨ s = "<text>" ∨ s = "<stdin>"

/-- handler.go `itoaPtrIfNotZero`. -/
def itoaPtrIfNotZero (n : Int) : Option String :=
  if n = 0 then none else some (toString n)

/-- Outcome of processing one scanned entry in the lint loop. -/
inductive EntryOut
  | panic
  | skip
  | keep (uri : DocumentURI) (diag : Diagnostic)
deriving DecidableEq, Repr

/-- The filename-resolution prefix of the entry loop
(handler.go:534-548): for a stdin sentinel the document's own name is
substituted, and a mismatch after `filepath.Abs` skips the entry (`none`);
otherwise the reported name is slash-normalised. -/
def entryFnRes (cfg : LintCfg) (fname cwd : String) (entry : Entry) :
    Option String :=
  if cfg.lintStdin ∧ isFilenameSentinel entry.filename then
    let path := goToSlash (goAbs cwd fname)
    if path ≠ fname then none else some fname
  else some (goToSlash entry.filename)

/-- The category-map translation (handler.go:568-571): with a non-empty
`lintCategoryMap` the type letter becomes the first rune of the mapped
string — `none` when that string is empty (absent key or empty image),
where the Go code panics on `[]rune(...)[0]`. -/
def entryTypRes (cfg : LintCfg) (t0 : Char) : Option Char :=
  if cfg.lintCategoryMap ≠ [] then
    (goMapGet cfg.lintCategoryMap (String.mk [t0])).data.head?
  else some t0

/-- The column after the `lintOffsetColumns` correction
(handler.go:554-556): applied only when positive and the entry names a
column. -/
def entryCol (cfg : LintCfg) (e : Entry) : Int :=
  if cfg.lintOffsetColumns > 0 ∧ e.col > 0 then e.col + cfg.lintOffsetColumns
  else e.col

/-- `entry.Lnum == 0` marks the top line (handler.go:558-560). -/
def entryLnum (e : Entry) : Int :=
  if e.lnum = 0 then 1 else e.lnum

/-- handler.go:562-566: a zero column becomes column 1 with no
word-widening; otherwise the word under the (adjusted) position is looked
up for the range width. -/
def entryColWord (cfg : LintCfg) (f : File) (e : Entry) : Int × String :=
  if entryCol cfg e = 0 then (1, "")
  else (entryCol cfg e,
    f.WordAt ⟨entryLnum e - 1 - cfg.lintOffset, entryCol cfg e - 1⟩)

/-- The severity switch (handler.go:573-587) applied to the (translated)
type letter. -/
def entrySeverity (cfg : LintCfg) (t : Char) : Int :=
  let sevDefault : Int := if cfg.lintSeverity ≠ 0 then cfg.lintSeverity else 1
  if t = 'E' ∨ t = 'e' then 1
  else if t = 'W' ∨ t = 'w' then 2
  else if t = 'I' ∨ t = 'i' then 3
  else if t = 'N' ∨ t = 'n' then 4
  else sevDefault

/-- Diagnostic routing (handler.go:589-596): a non-empty filename is turned
into a URI, joined to the recipe root when relative. -/
def entryDiagURI (uri : DocumentURI) (rootPath fn : String) : DocumentURI :=
  if fn ≠ "" then
    if goIsAbs fn then toURIm fn else toURIm (goJoin rootPath fn)
  else uri

/-- The diagnostic built for a kept entry (handler.go:610-619). -/
def entryDiag (cfg : LintCfg) (f : File) (e : Entry) (t : Char) : Diagnostic :=
  let colWord := entryColWord cfg f e
  let msgPrefix := if cfg.prefixStr ≠ "" then "[" ++ cfg.prefixStr ++ "] " else ""
  let srcOpt := if cfg.lintSource ≠ "" then some cfg.lintSource else none
  { range :=
      { start := ⟨entryLnum e - 1 - cfg.lintOffset, colWord.1 - 1⟩
        «end» := ⟨entryLnum e - 1 - cfg.lintOffset,
          colWord.1 - 1 + (colWord.2.data.length : Int)⟩ }
    code := itoaPtrIfNotZero e.nr
    message := msgPrefix ++ e.text
    severity := entrySeverity cfg t
    source := srcOpt }

/-- The per-entry body of the scanner loop in `lint`
(handler.go:529-620, identically part_001:591-682), assembled from the
named steps above in source order.

`panic` models the rune-slice index
`[]rune(config.LintCategoryMap[string(entry.Type)])[0]` on an empty string
(absent key or empty mapped value); `skip` models `continue`. -/
def runEntry (cfg : LintCfg) (f : File) (fname : String) (uri : DocumentURI)
    (rootPath cwd : String) (entry : Entry) : EntryOut :=
  if ¬ entry.valid then .skip
  else
    match entryFnRes cfg fname cwd entry with
    | none => .skip
    | some fn =>
      match entryTypRes cfg entry.typ with
      | none => .panic
      | some t =>
        if entryDiagURI uri rootPath fn ≠ uri ∧ ¬ cfg.lintWorkspace then .skip
        else .keep (entryDiagURI uri rootPath fn) (entryDiag cfg f entry t)

/-! ### JSON-query decoding (part_001:515-572)

The gojq engine is external; the values its iterator emits are the input.
JSON numbers are `float64` in Go; the values in scope are integral, so they
are carried as integers here and `safeFloat` is the corresponding coercion. -/

/-- A decoded JSON value as produced by `encoding/json.Unmarshal` into
`any` and transformed by the jq filter. -/
inductive JSONValue
  | null
  | bool (b : Bool)
  | num (n : Int)
  | str (s : String)
  | arr (xs : List JSONValue)
  | obj (fields : List (String × JSONValue))
deriving Repr

/-- `diagMap[k].(string)` with zero value on a failed assertion. -/
def jGetStr (o : List (String × JSONValue)) (k : String) : String :=
  match o.find? (fun p => p.1 = k) with
  | some ⟨_, .str s⟩ => s
  | _ => ""

/-- `diagMap[k].(map[string]interface{})` as an optional object. -/
def jGetObj (o : List (String × JSONValue)) (k : String) :
    Option (List (String × JSONValue)) :=
  match o.find? (fun p => p.1 = k) with
  | some ⟨_, .obj f⟩ => some f
  | _ => none

/-- part_001 `safeFloat` applied to a map read: any non-numeric value
(including a missing key, Go `nil`) collapses to `0`. -/
def safeFloatAt (o : List (String × JSONValue)) (k : String) : Int :=
  match o.find? (fun p => p.1 = k) with
  | some ⟨_, .num n⟩ => n
  | _ => 0

/-- The `range` extraction of the jq branch: a zero range, with `start` and
`end` filled independently when present as objects. -/
def jqRange (o : List (String × JSONValue)) : Range :=
  match jGetObj o "range" with
  | none => { start := ⟨0, 0⟩, «end» := ⟨0, 0⟩ }
  | some r =>
    let st : Position :=
      match jGetObj r "start" with
      | none => ⟨0, 0⟩
      | some s => ⟨safeFloatAt s "line", safeFloatAt s "character"⟩
    let en : Position :=
      match jGetObj r "end" with
      | none => ⟨0, 0⟩
      | some e => ⟨safeFloatAt e "line", safeFloatAt e "character"⟩
    { start := st, «end» := en }

/-- The severity switch of the jq branch (`strings.ToLower` then match). -/
def jqSeverity (severityStr : String) : Int :=
  let s := asciiLower severityStr
  if s = "error" then 1
  else if s = "warning" then 2
  else if s = "information" ∨ s = "info" then 3
  else if s = "hint" then 4
  else 1

/-- One iterator value of the jq loop (part_001:521-568): non-objects are
skipped (`continue`); an object always yields a diagnostic, with missing or
mistyped keys collapsing to Go zero values. -/
def processJqValue (uri : DocumentURI) (v : JSONValue) :
    Option (DocumentURI × Diagnostic) :=
  match v with
  | .obj o =>
    let file := jGetStr o "file"
    let message := jGetStr o "message"
    let severityStr := jGetStr o "severity"
    let rule := jGetStr o "rule"
    let rng := jqRange o
    let severity := jqSeverity severityStr
    let uriForDiag := if file ≠ "" then toURIm file else uri
    some (uriForDiag,
      { range := rng
        severity := severity
        message := message
        code := some rule
        source := none })
  | _ => none

/-- The whole jq iterator loop: the diagnostics appended, in order. -/
def processJq (uri : DocumentURI) (vs : List JSONValue) :
    List (DocumentURI × Diagnostic) :=
  vs.filterMap (processJqValue uri)

/-! ### The `lint` function (handler.go:380-631) -/

/-- Modelled from the spec: the wildcard language identifier (`=` in the
configuration), declared in `lsp.go`, which is not under `src/`.  "A special
identifier (wildcard) holds recipes that apply to every language." -/
def wildcard : String := "="

/-- `textDocument/did...` event kinds (Go `eventType`). -/
inductive EventType
  | change
  | save
  | open
deriving DecidableEq, Repr

/-- One recipe together with the effects of this particular run, supplied as
oracles: the filesystem answers (`matchRootPath`, `findRootPath`), the
availability-probe and install runs, validity of the error formats
(`errorformat.NewErrorformat`), the lint child process, and the entries its
output scans to. -/
structure CfgRun where
  cfg : LintCfg
  markerDir : String
  rootPath : String
  installProbe : ProcResult
  installRun : ProcResult
  formatsValid : Bool
  procRes : ProcResult
  entries : List Entry
deriving DecidableEq, Repr

/-- Generic association-list lookup (Go map read); maps are modelled as
association lists with distinct keys kept in insertion order. -/
def aLookup {α : Type} : List (String × α) → String → Option α
  | [], _ => none
  | p :: rest, k => if p.1 = k then some p.2 else aLookup rest k

/-- Association-list write `m[k] = v` (Go map assignment): update in place
or append. -/
def aSet {α : Type} : List (String × α) → String → α → List (String × α)
  | [], k, v => [(k, v)]
  | p :: rest, k, v =>
    if p.1 = k then (k, v) :: rest else p :: aSet rest k v

/-- The `uriToDiagnostics` map. -/
abbrev DiagMap := List (DocumentURI × List Diagnostic)

/-- `uriToDiagnostics[u] = append(uriToDiagnostics[u], d)` (a missing key
starts from the empty slice). -/
def mAppend : DiagMap → DocumentURI → Diagnostic → DiagMap
  | [], u, d => [(u, [d])]
  | p :: rest, u, d =>
    if p.1 = u then (p.1, p.2 ++ [d]) :: rest else p :: mAppend rest u d

/-- Seed `u` with an empty list unless already present
(handler.go:462-464). -/
def mSeed : DiagMap → DocumentURI → DiagMap
  | [], u => [(u, [])]
  | p :: rest, u =>
    if p.1 = u then p :: rest else p :: mSeed rest u

/-- Seed every previously published URI (handler.go:460-466). -/
def seedAll (m : DiagMap) (uris : List DocumentURI) : DiagMap :=
  uris.foldl mSeed m

/-- Set-insert into `publishedURIs`. -/
def pubInsert (pubs : List DocumentURI) (u : DocumentURI) : List DocumentURI :=
  if u ∈ pubs then pubs else pubs ++ [u]

/-- The recipe filter of `lint` (handler.go:392-423): language-specific
recipes are dropped without a required marker or on a mismatched event kind,
then both they and the wildcard recipes must have a lint command. -/
def filterLintCfgs (evt : EventType) (langCfgs wildcardCfgs : List CfgRun) :
    List CfgRun :=
  (langCfgs.filter fun c =>
    decide (¬ (c.markerDir = "" ∧ c.cfg.requireMarker = true)) &&
    (match evt with
     | .open => c.cfg.lintAfterOpen
     | .change => ! c.cfg.lintOnSave
     | .save => true) &&
    decide (c.cfg.lintCommand ≠ "")) ++
  wildcardCfgs.filter (fun c => decide (c.cfg.lintCommand ≠ ""))

/-- handler.go:438-457: the recipe is skipped when its availability check
fails and no install command is given, or installing fails. -/
def installSkipped (c : CfgRun) : Bool :=
  c.cfg.checkInstall ≠ "" ∧ ¬ isToolInstalled c.cfg.checkInstall c.installProbe ∧
  (if c.cfg.doInstall ≠ "" then ¬ installTool c.cfg.doInstall c.installRun else True)

/-- Process a run's scanned entries in order, short-circuiting on the
category-map panic. -/
def runCfgEntries (cfg : LintCfg) (f : File) (fname : String)
    (uri : DocumentURI) (rootPath cwd : String) :
    List Entry → Option (List (DocumentURI × Diagnostic))
  | [] => some []
  | e :: rest =>
    match runEntry cfg f fname uri rootPath cwd e with
    | .panic => none
    | .skip => runCfgEntries cfg f fname uri rootPath cwd rest
    | .keep u d =>
      (runCfgEntries cfg f fname uri rootPath cwd rest).map (fun l => (u, d) :: l)

/-- Result of the per-recipe loop. -/
inductive LoopOut
  | errFmt
  | cancelled
  | panicked
  | ok (m : DiagMap) (pubs : List DocumentURI)
deriving DecidableEq, Repr

/-- The recipe loop of `lint` (handler.go:437-621): availability check,
stale-URI seeding for workspace recipes, errorformat validation, the child
run (kill ⇒ `return nil, nil`; unexpected zero exit ⇒ recipe skipped), then
routing of every scanned entry. -/
def lintLoop (f : File) (fname : String) (uri : DocumentURI)
    (lastPubLang : List DocumentURI) (cwd : String) :
    List CfgRun → DiagMap → List DocumentURI → LoopOut
  | [], m, pubs => .ok m pubs
  | c :: rest, m, pubs =>
    if installSkipped c then lintLoop f fname uri lastPubLang cwd rest m pubs
    else
      let m1 := if c.cfg.lintWorkspace then seedAll m lastPubLang else m
      if c.cfg.lintCommand = "" then lintLoop f fname uri lastPubLang cwd rest m1 pubs
      else if ¬ c.formatsValid then .errFmt
      else if c.procRes.exitCode < 0 then .cancelled
      else if c.procRes.exitCode = 0 ∧ ¬ c.cfg.lintIgnoreExitCode then
        lintLoop f fname uri lastPubLang cwd rest m1 pubs
      else
        match runCfgEntries c.cfg f fname uri c.rootPath cwd c.entries with
        | none => .panicked
        | some kept =>
          let m2 := kept.foldl (fun acc p => mAppend acc p.1 p.2) m1
          let pubs2 :=
            if c.cfg.lintWorkspace then kept.foldl (fun acc p => pubInsert acc p.1) pubs
            else pubs
          lintLoop f fname uri lastPubLang cwd rest m2 pubs2

/-- A recipe run at which the loop does not return early: it is skipped
(availability or the unexpected-zero-exit path or an empty command), or it
completes normally — valid formats, a process that was not killed, and
entries that do not hit the category-map panic. -/
def cfgPasses (f : File) (fname : String) (uri : DocumentURI) (cwd : String)
    (c : CfgRun) : Bool :=
  installSkipped c ∨ c.cfg.lintCommand = "" ∨
  (c.formatsValid ∧ ¬ c.procRes.exitCode < 0 ∧
    ((c.procRes.exitCode = 0 ∧ ¬ c.cfg.lintIgnoreExitCode) ∨
      (runCfgEntries c.cfg f fname uri c.rootPath cwd c.entries).isSome))

/-- A recipe run whose child process the loop observes as killed by
cancellation: it is not skipped beforehand, and its process reports a
negative exit code (`succeeded(err)`, handler.go:763-768). -/
def cfgKilled (c : CfgRun) : Bool :=
  ¬ installSkipped c ∧ c.cfg.lintCommand ≠ "" ∧ c.formatsValid ∧
  c.procRes.exitCode < 0

/-- The URIs of the diagnostics a recipe run keeps (empty on the panic
path). -/
def entryURIsOfCfg (f : File) (fname : String) (uri : DocumentURI)
    (cwd : String) (c : CfgRun) : List DocumentURI :=
  match runCfgEntries c.cfg f fname uri c.rootPath cwd c.entries with
  | some kept => kept.map (fun p => p.1)
  | none => []

/-- A recipe run that reaches the scanner loop: not skipped by the
availability check, a non-empty command, valid formats, a process neither
killed nor on the unexpected-zero-exit path. -/
def executedNormally (c : CfgRun) : Bool :=
  ¬ installSkipped c ∧ c.cfg.lintCommand ≠ "" ∧ c.formatsValid ∧
  ¬ c.procRes.exitCode < 0 ∧
  ¬ (c.procRes.exitCode = 0 ∧ ¬ c.cfg.lintIgnoreExitCode)

/-- "The set of URIs for which the current run emitted at least one
workspace diagnostic" (spec §3 invariant), read off the runs. -/
def specWorkspaceURIs (f : File) (fname : String) (uri : DocumentURI)
    (cwd : String) (cfgs : List CfgRun) : List DocumentURI :=
  (cfgs.filter (fun c => executedNormally c && c.cfg.lintWorkspace)).flatMap
    (entryURIsOfCfg f fname uri cwd)

/-- The URIs receiving any diagnostic entry in the current run. -/
def specAllEntryURIs (f : File) (fname : String) (uri : DocumentURI)
    (cwd : String) (cfgs : List CfgRun) : List DocumentURI :=
  (cfgs.filter (fun c => executedNormally c)).flatMap
    (entryURIsOfCfg f fname uri cwd)

/-- `fromURI` (handler.go:209-221) restricted to well-formed `file://` URIs
over unescaped paths; a non-file URI is an error. -/
def fromURIm (uri : DocumentURI) : Option String :=
  if ("file://".data.isPrefixOf uri.data) then
    some (String.mk (uri.data.drop 7))
  else none

/-- The full state consumed by one `lint` call, effects as oracles. -/
structure LintInput where
  files : List (DocumentURI × File)
  uri : DocumentURI
  evt : EventType
  configs : List (String × List CfgRun)
  lastPub : List (String × List DocumentURI)
  cwd : String

/-- Result of `lint`: the Go pair `(map[DocumentURI][]Diagnostic, error)`
together with the final `lastPublishedURIs` state. -/
inductive LintOutcome
  | errDoc
  | errURI
  | errFmt
  | cancelled
  | panicked
  | ok (m : DiagMap) (lastPub : List (String × List DocumentURI))
deriving DecidableEq, Repr

/-- `(*langHandler).lint` (handler.go:380-631). -/
def lintGo (inp : LintInput) : LintOutcome :=
  match aLookup inp.files inp.uri with
  | none => .errDoc
  | some f =>
    match fromURIm inp.uri with
    | none => .errURI
    | some fname0 =>
      let fname := goToSlash fname0
      let langCfgs := (aLookup inp.configs f.languageID).getD []
      let wcCfgs := (aLookup inp.configs wildcard).getD []
      let cfgs := filterLintCfgs inp.evt langCfgs wcCfgs
      if cfgs = [] then .ok [] inp.lastPub
      else
        let lastPubLang := (aLookup inp.lastPub f.languageID).getD []
        match lintLoop f fname inp.uri lastPubLang inp.cwd cfgs [(inp.uri, [])] [] with
        | .errFmt => .errFmt
        | .cancelled => .cancelled
        | .panicked => .panicked
        | .ok m pubs =>
          let lastPub' :=
            if cfgs.any (fun c => c.cfg.lintWorkspace) then
              aSet inp.lastPub f.languageID pubs
            else inp.lastPub
          .ok m lastPub'

/-- What the `linter` goroutine (handler.go:244-287) publishes for one job:
nothing on an error or a cancelled run (the map is `nil`), otherwise one
`textDocument/publishDiagnostics` per map entry, with the bare `"file:"` key
remapped to the request URI. -/
def publishes (reqURI : DocumentURI) (out : LintOutcome) :
    List (DocumentURI × List Diagnostic) :=
  match out with
  | .ok m _ => m.map (fun p => (if p.1 = "file:" then reqURI else p.1, p.2))
  | _ => []

/-- The `lastPublishedURIs` state after the job: `lint` only assigns it on
the normal path (handler.go:623-629). -/
def lastPubAfter (inp : LintInput) : List (String × List DocumentURI) :=
  match lintGo inp with
  | .ok _ lp => lp
  | _ => inp.lastPub

/-! ### Command-template substitution

`replaceCommandInputFilename` (handler.go:744-754) plus the option-binding
and final-strip passes of `rangeFormatting`
(handle_text_document_formatting.go:157-200). -/

/-- handler.go `escapeBrackets`. -/
def escapeBrackets (path : String) : String :=
  goReplaceAll (goReplaceAll path "(" "\\(") ")" "\\)"

/-- handler.go `replaceCommandInputFilename`: the literal placeholders. -/
def replaceCommandInputFilename (command fname rootPath : String) : String :=
  let ext := goTrimPrefix (goExt fname) "."
  let c1 := goReplaceAll command "$\x7bINPUT\x7d" (escapeBrackets fname)
  let c2 := goReplaceAll c1 "$\x7bFILEEXT\x7d" ext
  let c3 := goReplaceAll c2 "$\x7bFILENAME\x7d" (escapeBrackets (goFromSlash fname))
  goReplaceAll c3 "$\x7bROOT\x7d" (escapeBrackets rootPath)

/-- Characters admitted inside the capture group of
`\$\x7b([^:|^\x7d]+):name\x7d`: anything but `':'`, `'|'`, `'^'`, `'\x7d'`. -/
def charAllowedColon (c : Char) : Bool :=
  ¬ (c = ':' ∨ c = '|' ∨ c = '^' ∨ c = '}')

/-- Likewise for the `=` form: anything but `'='`, `'|'`, `'^'`, `'\x7d'`. -/
def charAllowedEq (c : Char) : Bool :=
  ¬ (c = '=' ∨ c = '|' ∨ c = '^' ∨ c = '}')

/-- `regexp.ReplaceAllString` for the fixed shape of the option-binding
patterns: at each `"$\x7b"`, the group is the maximal non-empty run of
`allowed` characters (the class excludes the character opening `sep`, so
no backtracking arises), followed by the literal `sep` (e.g. `":tabSize\x7d"`);
`mkRep` builds the expansion of the `"$1..."` template from the group. -/
def bindScanF (allowed : Char → Bool) (sep : List Char)
    (mkRep : List Char → List Char) : Nat → List Char → List Char
  | _, [] => []
  | 0, s => s
  | fuel + 1, c :: rest =>
    if c = '$' ∧ rest.head? = some '{' then
      let grp := rest.tail.takeWhile allowed
      let after := rest.tail.dropWhile allowed
      if grp ≠ [] ∧ sep.isPrefixOf after then
        mkRep grp ++ bindScanF allowed sep mkRep fuel (after.drop sep.length)
      else c :: bindScanF allowed sep mkRep fuel rest
    else c :: bindScanF allowed sep mkRep fuel rest

/-- `bindScanF` with enough fuel for the whole string (each step consumes
at least one character). -/
def bindScan (allowed : Char → Bool) (sep : List Char)
    (mkRep : List Char → List Char) (s : List Char) : List Char :=
  bindScanF allowed sep mkRep s.length s

/-- A formatting-option value as it reaches the template: Go switches on
`bool` versus everything else, the latter rendered by `%v`. -/
inductive OptVal
  | boolean (b : Bool)
  | other (rendered : String)
deriving DecidableEq, Repr

/-- One iteration of the option loop
(handle_text_document_formatting.go:158-181): the `:`-form replaced by
`"$1 value"` / the `=`-form by `"$1=value"`; for booleans the plain or the
negated (`:!` / `=!`) patterns are replaced by the bare group. -/
def applyOption (command : List Char) (name : String) (v : OptVal) : List Char :=
  match v with
  | .other s =>
    let c1 := bindScan charAllowedColon (':' :: name.data ++ ['}'])
      (fun g => g ++ ' ' :: s.data) command
    bindScan charAllowedEq ('=' :: name.data ++ ['}'])
      (fun g => g ++ '=' :: s.data) c1
  | .boolean true =>
    let c1 := bindScan charAllowedColon (':' :: name.data ++ ['}']) id command
    bindScan charAllowedEq ('=' :: name.data ++ ['}']) id c1
  | .boolean false =>
    let c1 := bindScan charAllowedColon (':' :: '!' :: name.data ++ ['}']) id command
    bindScan charAllowedEq ('=' :: '!' :: name.data ++ ['}']) id c1

/-- UTF-8 byte width of one character (Go `len` counts bytes). -/
def utf8Len (c : Char) : Nat :=
  if c.toNat < 0x80 then 1
  else if c.toNat < 0x800 then 2
  else if c.toNat < 0x10000 then 3
  else 4

/-- Go `len` of a string in bytes. -/
def byteLen (cs : List Char) : Nat := (cs.map utf8Len).sum

/-- part_003 `convertRowColToIndex`: clamp row and column, then count the
bytes of the preceding lines plus one per newline. -/
def convertRowColToIndex (s : String) (row col : Int) : Int :=
  let lines := splitOnNl s.data
  let row1 : Int := if row < 0 then 0
    else if (lines.length : Int) ≤ row then (lines.length : Int) - 1 else row
  let line := lines.getD row1.toNat []
  let col1 : Int := if col < 0 then 0
    else if (byteLen line : Int) < col then (byteLen line) else col
  ((lines.take row1.toNat).map (fun l => (byteLen l : Int) + 1)).sum + col1

/-- A whole-document format request carries the sentinel `-1` range;
a range request carries real positions. -/
structure RangeParams where
  startLine : Int
  startChar : Int
  endLine : Int
  endChar : Int
deriving DecidableEq, Repr

/-- The `rangeOptions` map (handle_text_document_formatting.go:185-187), as
the list of its six bindings.  (Go iterates the map in unspecified order;
the names are pairwise distinct and the substituted values are digit
strings, so the order cannot affect the result.) -/
def rangeOptions (r : RangeParams) (text : String) : List (String × Int) :=
  [("charStart", convertRowColToIndex text r.startLine r.startChar),
   ("charEnd", convertRowColToIndex text r.endLine r.endChar),
   ("rowStart", r.startLine), ("colStart", r.startChar),
   ("rowEnd", r.endLine), ("colEnd", r.endChar)]

/-- One iteration of the range-option loop, `"$1 %d"` / `"$1=%d"`. -/
def applyRangeOption (command : List Char) (name : String) (v : Int) :
    List Char :=
  let c1 := bindScan charAllowedColon (':' :: name.data ++ ['}'])
    (fun g => g ++ ' ' :: (toString v).data) command
  bindScan charAllowedEq ('=' :: name.data ++ ['}'])
    (fun g => g ++ '=' :: (toString v).data) c1

/-- The final strip `regexp.MustCompile("\\$\x7b[^\x7d]*\x7d")` replaced by `""`
(handle_text_document_formatting.go:199-200): at each `"$\x7b"`, drop through
the first `'\x7d'` if one exists. -/
def stripPlaceholdersF : Nat → List Char → List Char
  | _, [] => []
  | 0, s => s
  | fuel + 1, c :: rest =>
    if c = '$' ∧ rest.head? = some '{' then
      match rest.tail.dropWhile (fun x => ¬ x = '}') with
      | '}' :: after2 => stripPlaceholdersF fuel after2
      | _ => c :: stripPlaceholdersF fuel rest
    else c :: stripPlaceholdersF fuel rest

/-- `stripPlaceholdersF` with enough fuel for the whole string. -/
def stripPlaceholders (s : List Char) : List Char :=
  stripPlaceholdersF s.length s

/-- The full substitution pipeline of the format engine, in source order:
literal placeholders, formatting-option bindings, range bindings (when a
real range is present), then the strip of any remaining `$\x7b...\x7d`. -/
def substitutePipeline (fname rootPath : String)
    (options : List (String × OptVal)) (rng : Option RangeParams)
    (text command : String) : String :=
  let c1 := replaceCommandInputFilename command fname rootPath
  let c2 := options.foldl (fun cmd p => applyOption cmd p.1 p.2) c1.data
  let c3 := match rng with
    | none => c2
    | some r => (rangeOptions r text).foldl
        (fun cmd p => applyRangeOption cmd p.1 p.2) c2
  String.mk (stripPlaceholders c3)

/-! ### Format engine (`rangeFormatting`,
handle_text_document_formatting.go:64-240) -/

/-- One format recipe plus the effects of this run: the marker match; for
the in-place path the buffer write, the formatter run, and the read-back;
for the stdin/stdout path the `cmd.Output()` run (`output` is its stdout,
the error non-nil iff the exit code is non-zero). -/
structure FormatCfgRun where
  formatCommand : String
  formatStdin : Bool
  formatInplace : Bool
  requireMarker : Bool
  markerDir : String
  writeOk : Bool
  inplaceRun : ProcResult
  readBack : Option String
  cmdRun : ProcResult
deriving DecidableEq, Repr

/-- The recipe filter (handle_text_document_formatting.go:79-96):
language-specific recipes need a format command and, when `requireMarker`,
a matched marker; wildcard recipes need only the command. -/
def filterFormatCfgs (langCfgs wcCfgs : List FormatCfgRun) :
    List FormatCfgRun :=
  (langCfgs.filter fun c =>
    decide (c.formatCommand ≠ "") &&
    decide (¬ (c.markerDir = "" ∧ c.requireMarker = true))) ++
  wcCfgs.filter (fun c => decide (c.formatCommand ≠ ""))

/-- The text a recipe leaves behind, or `none` for the `continue` paths:
in-place, a failed buffer write or read-back (the formatter's own exit code
is only logged); otherwise a failed (or regex-compile-aborted) command run.
`optionsRegexOk` stands for the four `regexp.Compile` calls per formatting
option succeeding, a property of the request's option names. -/
def formatCfgOutput (optionsNonEmpty optionsRegexOk : Bool)
    (c : FormatCfgRun) : Option String :=
  if c.formatInplace then
    if ¬ c.writeOk then none
    else c.readBack
  else
    if optionsNonEmpty ∧ ¬ optionsRegexOk then none
    else if c.cmdRun.exitCode = 0 then some c.cmdRun.output else none

/-- The recipe loop (handle_text_document_formatting.go:109-230): thread the
text through each succeeding recipe, stripping `'\r'`, and record whether
anything ran. -/
def formatLoop (optionsNonEmpty optionsRegexOk : Bool) :
    List FormatCfgRun → String → Bool → String × Bool
  | [], text, formatted => (text, formatted)
  | c :: rest, text, formatted =>
    if c.formatCommand = "" then
      formatLoop optionsNonEmpty optionsRegexOk rest text formatted
    else
      match formatCfgOutput optionsNonEmpty optionsRegexOk c with
      | none => formatLoop optionsNonEmpty optionsRegexOk rest text formatted
      | some out =>
        formatLoop optionsNonEmpty optionsRegexOk rest
          (goReplaceAll out "\r" "") true

/-- The Go pair `([]TextEdit, error)` returned by `rangeFormatting`:
`noConfigs` is the `return nil, nil` of line 102 (no edits **and no error**),
`notSupported` the final `return nil, fmt.Errorf("format for LanguageID not
supported: ...")`, and `edits` the `ComputeEdits(uri, originalText, text)`
call — the diff itself is the spec's external pure function, so the result
carries its two text arguments. -/
inductive FormatRes
  | docNotFound
  | uriInvalid
  | noConfigs
  | notSupported
  | edits (original finalText : String)
deriving DecidableEq, Repr

/-- The state and oracles of one `rangeFormatting` call. -/
structure FormatInput where
  files : List (DocumentURI × File)
  uri : DocumentURI
  configs : List (String × List FormatCfgRun)
  optionsNonEmpty : Bool
  optionsRegexOk : Bool

/-- `(*langHandler).rangeFormatting` (handle_text_document_formatting.go:64-240). -/
def rangeFormatting (inp : FormatInput) : FormatRes :=
  match aLookup inp.files inp.uri with
  | none => .docNotFound
  | some f =>
    match fromURIm inp.uri with
    | none => .uriInvalid
    | some _fname =>
      let langCfgs := (aLookup inp.configs f.languageID).getD []
      let wcCfgs := (aLookup inp.configs wildcard).getD []
      let cfgs := filterFormatCfgs langCfgs wcCfgs
      if cfgs = [] then .noConfigs
      else
        let res := formatLoop inp.optionsNonEmpty inp.optionsRegexOk cfgs f.text false
        if res.2 then .edits f.text res.1 else .notSupported

/-- Does the returned pair carry a non-nil error?  `noConfigs` is the one
outcome with neither edits nor error. -/
def formatReturnsError : FormatRes → Bool
  | .docNotFound => true
  | .uriInvalid => true
  | .notSupported => true
  | .noConfigs => false
  | .edits _ _ => false

/-! ### The lint debouncer (`lintRequest`, handler.go:233-242)

`lintRequest` resets a pending single-shot timer (keeping the closure of
the call that armed it) or arms a fresh one; on expiry the timer clears
itself and enqueues one `lintRequest` value.  Time is discrete; an event at
time `t` first lets a timer whose deadline has passed fire. -/

/-- Debouncer state: the open files' text, the pending timer
(deadline and the captured `uri`/`eventType`), and the fired queue in order
(deadline when fired, payload). -/
structure DebState where
  files : List (DocumentURI × String)
  timer : Option (Nat × DocumentURI × EventType)
  jobs : List (Nat × DocumentURI × EventType)
deriving DecidableEq, Repr

/-- A `textDocument/didChange`-style event: arrival time, document, new text. -/
structure DebEvent where
  time : Nat
  uri : DocumentURI
  text : String
  evt : EventType
deriving DecidableEq, Repr

/-- Let a timer whose deadline is ≤ `now` fire: enqueue its payload once and
clear it (the `time.AfterFunc` body, handler.go:238-241). -/
def fireIfDue (now : Nat) (st : DebState) : DebState :=
  match st.timer with
  | some (deadline, u, e) =>
    if deadline ≤ now then
      { st with timer := none, jobs := st.jobs ++ [(deadline, u, e)] }
    else st
  | none => st

/-- `updateFile` + `lintRequest` for one event: store the text, then either
`Reset` the pending timer — its deadline moves to `now + debounce` but the
enqueued payload stays the one captured when it was armed — or arm a fresh
timer capturing this event's `uri`/`eventType`. -/
def debHandle (debounce : Nat) (st : DebState) (ev : DebEvent) : DebState :=
  let st1 := fireIfDue ev.time st
  let files1 := aSet st1.files ev.uri ev.text
  match st1.timer with
  | some (_, u, e) =>
    { st1 with files := files1, timer := some (ev.time + debounce, u, e) }
  | none =>
    { st1 with files := files1, timer := some (ev.time + debounce, ev.uri, ev.evt) }

/-- Run a sequence of events. -/
def debRun (debounce : Nat) (st : DebState) (evs : List DebEvent) : DebState :=
  evs.foldl (debHandle debounce) st

/-- After quiescence the pending timer fires. -/
def debFinish (st : DebState) : DebState :=
  match st.timer with
  | some (deadline, u, e) =>
    { st with timer := none, jobs := st.jobs ++ [(deadline, u, e)] }
  | none => st

/-- The chaining hypothesis for a burst: each event arrives strictly before
the deadline the previous event (re)armed. -/
def ChainOK (debounce : Nat) : Nat → List DebEvent → Prop
  | _, [] => True
  | deadline, e :: rest => e.time < deadline ∧ ChainOK debounce (e.time + debounce) rest

instance (d : Nat) : ∀ dl evs, Decidable (ChainOK d dl evs) := by
  intro dl evs
  induction evs generalizing dl with
  | nil => exact .isTrue trivial
  | cons e rest ih =>
    have : Decidable (ChainOK d (e.time + d) rest) := ih (e.time + d)
    exact instDecidableAnd

/-! ### Spec-side definitions used to state the claims -/

/-- Is the jq-emitted value a JSON object?  (The code's
`v.(map[string]interface{})` type assertion.) -/
def isJqObject : JSONValue → Bool
  | .obj _ => true
  | _ => false

/-- The claim's severity formula (spec §4.B / §8.7): the type letter is first
translated through `lintCategoryMap` when that map is non-empty (undefined on
an absent key or empty image), then `E/e↦1`, `W/w↦2`, `I/i↦3`, `N/n↦4`,
otherwise `lintSeverity` when non-zero and `1`. -/
def specSeverityOfType (cfg : LintCfg) (t0 : Char) : Option Int :=
  (if cfg.lintCategoryMap ≠ [] then
    (goMapGet cfg.lintCategoryMap (String.mk [t0])).data.head?
   else some t0).map fun t =>
    if t = 'E' ∨ t = 'e' then 1
    else if t = 'W' ∨ t = 'w' then 2
    else if t = 'I' ∨ t = 'i' then 3
    else if t = 'N' ∨ t = 'n' then 4
    else if cfg.lintSeverity ≠ 0 then cfg.lintSeverity else 1

/-! ### Concrete instances used by witnesses and counterexamples -/

/-- A small open document. -/
def docF : File := ⟨"python", "", 1⟩

/-- A recipe with `lintOffsetColumns = 1` and no other adjustments. -/
def cexC8cfg : LintCfg :=
  ⟨"", false, 0, 1, "mylint", true, [], "", 0, false, false, false, false, "", ""⟩

/-- An entry on line 1, column 3. -/
def cexC8entry : Entry := ⟨"", 1, 3, 0, 'E', "", true⟩

/-- A plain recipe: no offsets, no category map. -/
def witC8cfg : LintCfg :=
  ⟨"", false, 0, 0, "mylint", true, [], "", 0, false, false, false, false, "", ""⟩

/-- An entry on line 2, column 3. -/
def witC8entry : Entry := ⟨"", 2, 3, 0, 'E', "", true⟩

/-- An entry on line 2 with the whole-line column 0. -/
def witC8entry0 : Entry := ⟨"", 2, 0, 0, 'E', "", true⟩

/-- A recipe mapping category letter `E` to `W`. -/
def witC7cfg : LintCfg :=
  ⟨"", false, 0, 0, "mylint", true, [("E", "W")], "", 0, false, false, false, false, "", ""⟩

/-- An entry with type letter `E`. -/
def witC7entry : Entry := ⟨"", 1, 1, 0, 'E', "m", true⟩

/-- An entry whose type letter `X` is absent from the category map. -/
def witC10entry : Entry := ⟨"", 1, 1, 0, 'X', "boom", true⟩

/-- A lua recipe with an empty `formatCommand`, which filtering drops. -/
def cexC4run : FormatCfgRun :=
  ⟨"", false, false, false, "", true, ⟨0, ""⟩, none, ⟨0, ""⟩⟩

/-- A format request for a lua document whose only recipe has no format
command. -/
def cexC4inp : FormatInput :=
  ⟨[("file:///a.lua", ⟨"lua", "abc", 1⟩)], "file:///a.lua",
    [("lua", [cexC4run])], false, true⟩

/-- A lua recipe whose formatter run fails (exit 1). -/
def witC4run : FormatCfgRun :=
  ⟨"luafmt", false, false, false, "", true, ⟨0, ""⟩, none, ⟨1, ""⟩⟩

/-- A format request where one recipe survives but its run fails. -/
def witC4inp : FormatInput :=
  ⟨[("file:///a.lua", ⟨"lua", "abc", 1⟩)], "file:///a.lua",
    [("lua", [witC4run])], false, true⟩

/-- A recipe run whose lint child was killed (exit code −1). -/
def witC2run : CfgRun :=
  ⟨witC8cfg, "", "/", ⟨0, ""⟩, ⟨0, ""⟩, true, ⟨-1, ""⟩, []⟩

/-- A lint request whose only recipe's child is killed by cancellation. -/
def witC2inp : LintInput :=
  ⟨[("file:///x.py", docF)], "file:///x.py", .change,
    [("python", [witC2run])], [("python", ["file:///old.py"])], "/"⟩

/-- A workspace-scoped markdown recipe whose availability check is set (and
will fail) with no install command. -/
def cexC3cfg : LintCfg :=
  ⟨"", false, 0, 0, "mdlint", true, [], "", 0, true, false, false, false,
    "which mdlint", ""⟩

/-- Its run: the probe exits 1, so the recipe is skipped before seeding. -/
def cexC3run : CfgRun := ⟨cexC3cfg, "", "/", ⟨1, ""⟩, ⟨0, ""⟩, true, ⟨1, ""⟩, []⟩

/-- A lint request with `file:///b.md` previously published for markdown. -/
def cexC3inp : LintInput :=
  ⟨[("file:///a.md", ⟨"markdown", "", 1⟩)], "file:///a.md", .change,
    [("markdown", [cexC3run])], [("markdown", ["file:///b.md"])], "/"⟩

/-- A workspace-scoped markdown recipe with no availability check. -/
def witC3cfg : LintCfg :=
  ⟨"", false, 0, 0, "mdlint", true, [], "", 0, true, false, false, false, "", ""⟩

/-- A workspace entry for `/a.md` only. -/
def witC3entry : Entry := ⟨"/a.md", 1, 1, 0, 'E', "bad", true⟩

/-- Its run: exit 1 (expected for a linter), one entry. -/
def witC3run : CfgRun :=
  ⟨witC3cfg, "", "/", ⟨0, ""⟩, ⟨0, ""⟩, true, ⟨1, ""⟩, [witC3entry]⟩

/-- A lint request with `a.md` and `b.md` previously published. -/
def witC3inp : LintInput :=
  ⟨[("file:///a.md", ⟨"markdown", "", 1⟩)], "file:///a.md", .change,
    [("markdown", [witC3run])],
    [("markdown", ["file:///a.md", "file:///b.md"])], "/"⟩

/-- Three `didChange` events 10 time units apart on one document. -/
def witC1e1 : DebEvent := ⟨0, "file:///a.md", "t1", .change⟩

/-- Second event of the burst. -/
def witC1e2 : DebEvent := ⟨10, "file:///a.md", "t2", .change⟩

/-- Third event of the burst. -/
def witC1e3 : DebEvent := ⟨20, "file:///a.md", "t3", .change⟩

/-! ## Theorems -/

/-- C5 counterexample: an object emitted by the jq filter that lacks *all*
of the required keys `file`, `message`, `severity`, `range` is **not**
skipped: it contributes one diagnostic (zero range, severity 1 (error),
empty message, code `""`) on the active document. -/
theorem c5_counterexample :
    processJq "file:///a.py" [JSONValue.obj []] =
      [("file:///a.py",
        { range := { start := ⟨0, 0⟩, «end» := ⟨0, 0⟩ }
          severity := 1
          code := some ""
          message := ""
          source := none })] := by
  rfl

/-- C5 (amended): in the `lintJq` decode loop, only emitted values that are
not JSON objects are skipped; every emitted object contributes exactly one
diagnostic, with missing or mistyped keys collapsing to zero-value defaults.
Hence the diagnostic count equals the number of emitted objects, and a
non-object value contributes nothing. -/
theorem c5_jq_object_count (uri : DocumentURI) (vs : List JSONValue) :
    (processJq uri vs).length = vs.countP isJqObject ∧
    (∀ v ∈ vs, isJqObject v = false → processJqValue uri v = none) := by
  constructor
  · induction vs with
    | nil => rfl
    | cons v rest ih =>
      cases v <;>
        simp [processJq, processJqValue, isJqObject, List.countP_cons,
          List.filterMap_cons] at ih ⊢ <;> omega
  · intro v _ hv
    cases v <;> simp [isJqObject] at hv <;> rfl

/-- C6 counterexample: a `checkInstalled` probe that exits zero with empty
output is judged **installed** by the pre-lint probe `isToolInstalled`
(handler.go:349), but **not installed** by `CheckAndInstallTool`
(part_003:48), falsifying the claim that both probes require non-blank
output. -/
theorem c6_counterexample :
    isToolInstalled "which mytool" ⟨0, ""⟩ = true ∧
    CheckAndInstallTool ⟨"which mytool", ""⟩ "mytool" false ⟨0, ""⟩ ⟨0, ""⟩ ⟨0, ""⟩ =
      .error "tool mytool not found and no install command specified" := by
  exact ⟨rfl, rfl⟩

/-- C6 (amended): under `--check-deps`/`--install-deps`,
`CheckAndInstallTool` (with no install command configured) judges the tool
installed iff the probe exits zero **and** its combined output is non-empty
after trimming; the pre-lint probe `isToolInstalled`, by contrast, judges
installed iff the exit code is zero, ignoring the output. -/
theorem c6_probe_semantics (cfg : ToolProbeCfg) (tn : String) (dep : Bool)
    (chk ir rr : ProcResult) (cmd : String) (r : ProcResult)
    (hc : cfg.checkInstalled ≠ "") (hi : cfg.install = "") :
    (CheckAndInstallTool cfg tn dep chk ir rr = .ok () ↔
      (chk.exitCode = 0 ∧ goTrimSpace chk.output ≠ "")) ∧
    (isToolInstalled cmd r = true ↔ r.exitCode = 0) := by
  constructor
  · unfold CheckAndInstallTool
    simp only [hc, hi, if_neg, if_pos]
    by_cases h1 : chk.exitCode ≠ 0 ∨ goTrimSpace chk.output = ""
    · simp [h1]
      tauto
    · simp [h1]
      tauto
  · simp [isToolInstalled]

/-- C6 witness: the amended equivalences applied to the probe result
`(exit 0, output "ok\n")`, which both sides accept. -/
theorem c6_probe_semantics_witness :
    (CheckAndInstallTool ⟨"which t", ""⟩ "t" false ⟨0, "ok\n"⟩ ⟨0, ""⟩ ⟨0, ""⟩ = .ok () ↔
      ((0 : Int) = 0 ∧ goTrimSpace "ok\n" ≠ "")) ∧
    (isToolInstalled "which t" ⟨0, "ok\n"⟩ = true ↔ (0 : Int) = 0) := by
  exact c6_probe_semantics ⟨"which t", ""⟩ "t" false ⟨0, "ok\n"⟩ ⟨0, ""⟩ ⟨0, ""⟩
    "which t" ⟨0, "ok\n"⟩ (by decide) rfl

/-- Shared inversion: a kept entry pins down the resolved filename, the
translated type letter, the routed URI and the built diagnostic. -/
theorem runEntry_keep_inv (cfg : LintCfg) (f : File) (fname : String)
    (uri : DocumentURI) (rootPath cwd : String) (e : Entry) (u : DocumentURI)
    (d : Diagnostic) (h : runEntry cfg f fname uri rootPath cwd e = .keep u d) :
    ∃ fn t, entryFnRes cfg fname cwd e = some fn ∧
      entryTypRes cfg e.typ = some t ∧
      u = entryDiagURI uri rootPath fn ∧ d = entryDiag cfg f e t := by
  unfold runEntry at h
  split at h
  · exact absurd h (by simp)
  · split at h
    · exact absurd h (by simp)
    · next fn hfn =>
      split at h
      · exact absurd h (by simp)
      · next t ht =>
        split at h
        · exact absurd h (by simp)
        · rw [EntryOut.keep.injEq] at h
          exact ⟨fn, t, hfn, ht, h.1.symm, h.2.symm⟩

/-- C7: for every entry the lint loop keeps, the emitted diagnostic's
severity is exactly the claim's formula: the type letter is first translated
through `lintCategoryMap` when that map is non-empty, then
`E/e↦1`, `W/w↦2`, `I/i↦3`, `N/n↦4`, and any other resulting letter falls
back to `lintSeverity` when non-zero and `1` (Error) otherwise. -/
theorem c7_severity_mapping (cfg : LintCfg) (f : File) (fname : String)
    (uri : DocumentURI) (rootPath cwd : String) (e : Entry) (u : DocumentURI)
    (d : Diagnostic) (h : runEntry cfg f fname uri rootPath cwd e = .keep u d) :
    specSeverityOfType cfg e.typ = some d.severity := by
  obtain ⟨fn, t, hfn, ht, hu, hd⟩ := runEntry_keep_inv cfg f fname uri rootPath cwd e u d h
  subst hd
  simp only [specSeverityOfType]
  unfold entryTypRes at ht
  rw [ht]
  rfl

/-- C7 witness: with the category map `E ↦ W`, an `E`-typed entry is kept
with severity 2 (Warning), matching the claim's formula. -/
theorem c7_severity_mapping_witness :
    specSeverityOfType witC7cfg 'E' = some 2 := by
  have h := c7_severity_mapping witC7cfg docF "/x.py" "file:///x.py" "/" "/"
    witC7entry "file:///x.py" (entryDiag witC7cfg docF witC7entry 'W') (by decide)
  exact h.trans (by decide)

/-- C8 counterexample: with `lintOffsetColumns = 1`, an entry at line 1
column 3 is published with start character 3, not the claimed
`entry.column − 1 = 2`: the claim omits the `lintOffsetColumns`
adjustment. -/
theorem c8_counterexample :
    runEntry cexC8cfg docF "/x.py" "file:///x.py" "/" "/" cexC8entry =
      .keep "file:///x.py"
        { range := { start := ⟨0, 3⟩, «end» := ⟨0, 3⟩ }
          severity := 1
          code := none
          message := ""
          source := none } ∧
    cexC8entry.col - 1 = (2 : Int) := by
  exact ⟨by decide, by decide⟩

/-- C8 (amended): for every kept entry, **provided
`lintOffsetColumns ≤ 0`** (the claim omits that a positive
`lintOffsetColumns` is first added to a positive column), a line ≥ 1 and
column ≥ 1 yield start position
`(entry.line − 1 − lintOffset, entry.column − 1)`; and an entry with
column 0 is given column 1 and skips word-widening, yielding a zero-width
range at character 0 of that line. -/
theorem c8_position_origin (cfg : LintCfg) (f : File) (fname : String)
    (uri : DocumentURI) (rootPath cwd : String) (e : Entry) (u : DocumentURI)
    (d : Diagnostic) (h : runEntry cfg f fname uri rootPath cwd e = .keep u d) :
    (cfg.lintOffsetColumns ≤ 0 → 1 ≤ e.lnum → 1 ≤ e.col →
      d.range.start = ⟨e.lnum - 1 - cfg.lintOffset, e.col - 1⟩) ∧
    (e.col = 0 → d.range.start.character = 0 ∧ d.range.«end» = d.range.start) := by
  obtain ⟨fn, t, hfn, ht, hu, hd⟩ := runEntry_keep_inv cfg f fname uri rootPath cwd e u d h
  subst hd
  constructor
  · intro hoc hl hc
    have hcol : entryCol cfg e = e.col := by
      unfold entryCol
      rw [if_neg]
      omega
    have hlnum : entryLnum e = e.lnum := by
      unfold entryLnum
      rw [if_neg]
      omega
    have hne : ¬ e.col = 0 := by omega
    simp [entryDiag, entryColWord, hcol, hlnum, hne]
  · intro hc0
    have hcol : entryCol cfg e = 0 := by
      unfold entryCol
      rw [if_neg]
      · exact hc0
      · omega
    simp [entryDiag, entryColWord, hcol]

/-- C8 witness: with no column offset, the kept entry (line 2, column 3)
starts at `(1, 2)`; and a column-0 entry on line 2 yields the zero-width
range at character 0. -/
theorem c8_position_origin_witness :
    (entryDiag witC8cfg docF witC8entry 'E').range.start = ⟨1, 2⟩ ∧
    ((entryDiag witC8cfg docF witC8entry0 'E').range.start.character = 0 ∧
      (entryDiag witC8cfg docF witC8entry0 'E').range.«end» =
        (entryDiag witC8cfg docF witC8entry0 'E').range.start) := by
  refine ⟨?_, ?_⟩
  · exact (c8_position_origin witC8cfg docF "/x.py" "file:///x.py" "/" "/"
      witC8entry "file:///x.py" (entryDiag witC8cfg docF witC8entry 'E')
      (by decide)).1 (by decide) (by decide) (by decide)
  · exact (c8_position_origin witC8cfg docF "/x.py" "file:///x.py" "/" "/"
      witC8entry0 "file:///x.py" (entryDiag witC8cfg docF witC8entry0 'E')
      (by decide)).2 (by decide)

/-- C10: with a non-empty `lintCategoryMap`, an entry (not discarded by the
stdin-filename check) whose type letter is absent from the map — or maps to
the empty string — makes the entry loop take the first rune of an empty
rune slice: the run has no defined result (the Go code panics) instead of
falling back to the default severity. -/
theorem c10_category_map_panic (cfg : LintCfg) (f : File) (fname : String)
    (uri : DocumentURI) (rootPath cwd : String) (e : Entry)
    (hmap : cfg.lintCategoryMap ≠ [])
    (hget : goMapGet cfg.lintCategoryMap (String.mk [e.typ]) = "")
    (hvalid : e.valid = true)
    (hns : ¬ (cfg.lintStdin = true ∧ isFilenameSentinel e.filename = true ∧
      goToSlash (goAbs cwd fname) ≠ fname)) :
    runEntry cfg f fname uri rootPath cwd e = .panic := by
  have hty : entryTypRes cfg e.typ = none := by
    simp [entryTypRes, hmap, hget]
  have hfn : ∃ fn, entryFnRes cfg fname cwd e = some fn := by
    unfold entryFnRes
    by_cases hs : cfg.lintStdin = true ∧ isFilenameSentinel e.filename = true
    · have hp : goToSlash (goAbs cwd fname) = fname := by
        by_contra hne
        exact hns ⟨hs.1, hs.2, hne⟩
      exact ⟨fname, by simp [hs.1, hs.2, hp]⟩
    · refine ⟨goToSlash e.filename, ?_⟩
      rw [if_neg]
      exact fun hc => hs ⟨hc.1, hc.2⟩
  obtain ⟨fn, hfn⟩ := hfn
  unfold runEntry
  rw [if_neg (by simp [hvalid]), hfn, hty]

/-- C10 witness: category map `E ↦ W` and an entry typed `X` — the loop
panics on that entry. -/
theorem c10_category_map_panic_witness :
    runEntry witC7cfg docF "/x.py" "file:///x.py" "/" "/" witC10entry = .panic := by
  exact c10_category_map_panic witC7cfg docF "/x.py" "file:///x.py" "/" "/"
    witC10entry (by decide) (by decide) (by decide) (by decide)

/-- Reading back the key just written (Go map semantics). -/
theorem aLookup_aSet_self {α : Type} (m : List (String × α)) (k : String) (v : α) :
    aLookup (aSet m k v) k = some v := by
  induction m with
  | nil => simp [aSet, aLookup]
  | cons p rest ih =>
    by_cases hp : p.1 = k
    · simp [aSet, aLookup, hp]
    · simp [aSet, aLookup, hp, ih]

/-- While every event of a burst arrives strictly before the armed
deadline, each `lintRequest` only `Reset`s the timer: no job fires, the
captured payload stays that of the arming event, the deadline tracks the
last event, and the store accumulates the writes. -/
theorem debRun_armed (D : Nat) :
    ∀ (evs : List DebEvent) (st : DebState) (dl : Nat) (u0 : DocumentURI)
      (e0 : EventType), st.timer = some (dl, u0, e0) → ChainOK D dl evs →
      (debRun D st evs).timer =
        some (evs.foldl (fun _ e => e.time + D) dl, u0, e0) ∧
      (debRun D st evs).jobs = st.jobs ∧
      (debRun D st evs).files =
        evs.foldl (fun fs e => aSet fs e.uri e.text) st.files := by
  intro evs
  induction evs with
  | nil =>
    intro st dl u0 e0 ht _
    exact ⟨by simp [debRun, ht], rfl, rfl⟩
  | cons e rest ih =>
    intro st dl u0 e0 ht hchain
    obtain ⟨hlt, hchain2⟩ := hchain
    have hstep : debHandle D st e =
        { st with files := aSet st.files e.uri e.text,
                  timer := some (e.time + D, u0, e0) } := by
      unfold debHandle fireIfDue
      rw [ht]
      dsimp only
      rw [if_neg (by omega)]
      rw [ht]
    have hred : debRun D st (e :: rest) = debRun D (debHandle D st e) rest := rfl
    rw [hred, hstep]
    simp only [List.foldl_cons]
    exact ih _ (e.time + D) u0 e0 rfl hchain2

/-- Folding the writes of same-URI events over the store ends at the last
event's text. -/
theorem foldl_aSet_lookup (u : DocumentURI) :
    ∀ (evs : List DebEvent) (fs : List (DocumentURI × String)) (t : String),
      (∀ x ∈ evs, x.uri = u) → aLookup fs u = some t →
      aLookup (evs.foldl (fun fs e => aSet fs e.uri e.text) fs) u =
        some (evs.foldl (fun _ x => x.text) t) := by
  intro evs
  induction evs with
  | nil => intro fs t _ h; exact h
  | cons x rest ih =>
    intro fs t hall h
    have hx : x.uri = u := hall x (List.mem_cons_self _ _)
    simp only [List.foldl_cons]
    refine ih _ x.text (fun y hy => hall y (List.mem_cons_of_mem _ hy)) ?_
    rw [hx]
    exact aLookup_aSet_self fs u x.text

/-- The deadline fold commutes with the `+ debounce` offset. -/
theorem foldl_time_plus (D : Nat) :
    ∀ (rest : List DebEvent) (t : Nat),
      rest.foldl (fun _ x => x.time + D) (t + D) =
        (rest.foldl (fun _ x => x.time) t) + D := by
  intro rest
  induction rest with
  | nil => intro t; rfl
  | cons x r ih => intro t; simp only [List.foldl_cons]; exact ih x.time

/-- C1: for a burst of change events on one document in which every later
event arrives within the debounce window of its predecessor, exactly one
lint job is enqueued after quiescence — at the last event's time plus the
debounce, carrying the URI of the burst — and the document text the job
will read from the store is the text set by the last event. -/
theorem c1_debounce_single_job (D : Nat) (files0 : List (DocumentURI × String))
    (e : DebEvent) (rest : List DebEvent)
    (hchain : ChainOK D (e.time + D) rest)
    (huri : ∀ x ∈ rest, x.uri = e.uri) :
    (debFinish (debRun D ⟨files0, none, []⟩ (e :: rest))).jobs =
      [((rest.foldl (fun _ x => x.time) e.time) + D, e.uri, e.evt)] ∧
    aLookup (debFinish (debRun D ⟨files0, none, []⟩ (e :: rest))).files e.uri =
      some (rest.foldl (fun _ x => x.text) e.text) ∧
    (debFinish (debRun D ⟨files0, none, []⟩ (e :: rest))).timer = none := by
  have h1 : debRun D (⟨files0, none, []⟩ : DebState) (e :: rest) =
      debRun D ⟨aSet files0 e.uri e.text, some (e.time + D, e.uri, e.evt), []⟩ rest := rfl
  obtain ⟨ht, hj, hf⟩ := debRun_armed D rest
    ⟨aSet files0 e.uri e.text, some (e.time + D, e.uri, e.evt), []⟩
    (e.time + D) e.uri e.evt rfl hchain
  rw [h1]
  unfold debFinish
  rw [ht]
  dsimp only
  refine ⟨?_, ?_, rfl⟩
  · rw [hj]
    dsimp only
    rw [foldl_time_plus D rest e.time]
    rfl
  · rw [hf]
    dsimp only
    exact foldl_aSet_lookup e.uri rest _ e.text huri (aLookup_aSet_self files0 e.uri e.text)

/-- C1 witness: three events at times 0, 10, 20 with a debounce of 1000
yield exactly one job, due at 1020, and the store holds the third text. -/
theorem c1_debounce_single_job_witness :
    (debFinish (debRun 1000 ⟨[], none, []⟩ [witC1e1, witC1e2, witC1e3])).jobs =
      [(1020, "file:///a.md", EventType.change)] ∧
    aLookup (debFinish (debRun 1000 ⟨[], none, []⟩
      [witC1e1, witC1e2, witC1e3])).files "file:///a.md" = some "t3" ∧
    (debFinish (debRun 1000 ⟨[], none, []⟩ [witC1e1, witC1e2, witC1e3])).timer =
      none := by
  have h := c1_debounce_single_job 1000 [] witC1e1 [witC1e2, witC1e3]
    (by decide) (by decide)
  exact ⟨h.1.trans (by decide), h.2.1.trans (by decide), h.2.2⟩

/-- When the recipe loop reaches a run whose child was killed by
cancellation — every earlier surviving recipe having passed through — the
whole loop returns the Go `return nil, nil` (`cancelled`), whatever the
accumulated map and published set. -/
theorem lintLoop_killed (f : File) (fname : String) (uri : DocumentURI)
    (lastPubLang : List DocumentURI) (cwd : String) (c : CfgRun)
    (rest : List CfgRun) (hc : cfgKilled c = true) :
    ∀ pre m pubs, (∀ c' ∈ pre, cfgPasses f fname uri cwd c' = true) →
      lintLoop f fname uri lastPubLang cwd (pre ++ c :: rest) m pubs = .cancelled := by
  have hc' : ¬ installSkipped c = true ∧ ¬ c.cfg.lintCommand = "" ∧
      c.formatsValid = true ∧ c.procRes.exitCode < 0 := by
    simpa [cfgKilled] using hc
  intro pre
  induction pre with
  | nil =>
    intro m pubs _
    simp only [List.nil_append]
    unfold lintLoop
    rw [if_neg hc'.1]
    dsimp only
    rw [if_neg hc'.2.1, if_neg (by simp [hc'.2.2.1]), if_pos hc'.2.2.2]
  | cons c' pre' ih =>
    intro m pubs hpass
    have hp : installSkipped c' = true ∨ c'.cfg.lintCommand = "" ∨
        (c'.formatsValid = true ∧ ¬ c'.procRes.exitCode < 0 ∧
          ((c'.procRes.exitCode = 0 ∧ ¬ c'.cfg.lintIgnoreExitCode = true) ∨
            (runCfgEntries c'.cfg f fname uri c'.rootPath cwd c'.entries).isSome = true)) := by
      simpa [cfgPasses] using hpass c' (List.mem_cons_self _ _)
    have hrest : ∀ x ∈ pre', cfgPasses f fname uri cwd x = true :=
      fun x hx => hpass x (List.mem_cons_of_mem _ hx)
    simp only [List.cons_append]
    unfold lintLoop
    by_cases hsk : installSkipped c' = true
    · rw [if_pos hsk]
      exact ih m pubs hrest
    · rw [if_neg hsk]
      dsimp only
      by_cases hcmd : c'.cfg.lintCommand = ""
      · rw [if_pos hcmd]
        exact ih _ pubs hrest
      · rw [if_neg hcmd]
        rcases hp with hp | hp | ⟨hfmt, hnk, hcase⟩
        · exact absurd hp hsk
        · exact absurd hp hcmd
        · rw [if_neg (by simp [hfmt]), if_neg hnk]
          by_cases hz : c'.procRes.exitCode = 0 ∧ ¬ c'.cfg.lintIgnoreExitCode = true
          · rw [if_pos hz]
            exact ih _ pubs hrest
          · rw [if_neg hz]
            rcases hcase with hzero | hsome
            · exact absurd hzero hz
            · obtain ⟨kept, hkept⟩ := Option.isSome_iff_exists.mp hsome
              rw [hkept]
              exact ih _ _ hrest

/-- C2: a lint job whose child process is killed by cancellation (exit
code < 0) returns without producing any result: `lint` returns the Go
`(nil, nil)`, the `linter` goroutine publishes no
`textDocument/publishDiagnostics` notification for the job, and
`lastPublishedURIs` is left unchanged. -/
theorem c2_cancelled_no_publish (inp : LintInput) (f : File) (fname0 : String)
    (pre : List CfgRun) (c : CfgRun) (rest : List CfgRun)
    (hf : aLookup inp.files inp.uri = some f)
    (hu : fromURIm inp.uri = some fname0)
    (hsplit : filterLintCfgs inp.evt ((aLookup inp.configs f.languageID).getD [])
        ((aLookup inp.configs wildcard).getD []) = pre ++ c :: rest)
    (hpass : ∀ c' ∈ pre, cfgPasses f (goToSlash fname0) inp.uri inp.cwd c' = true)
    (hk : cfgKilled c = true) (reqURI : DocumentURI) :
    lintGo inp = .cancelled ∧ publishes reqURI (lintGo inp) = [] ∧
    lastPubAfter inp = inp.lastPub := by
  have hmain : lintGo inp = .cancelled := by
    unfold lintGo
    rw [hf, hu]
    dsimp only
    rw [hsplit]
    rw [if_neg (by simp)]
    rw [lintLoop_killed f (goToSlash fname0) inp.uri _ inp.cwd c rest hk pre _ _ hpass]
  refine ⟨hmain, ?_, ?_⟩
  · rw [hmain]
    rfl
  · unfold lastPubAfter
    rw [hmain]

/-- C2 witness: a lint run whose single recipe's child exits with −1
publishes nothing and leaves `lastPublishedURIs` untouched. -/
theorem c2_cancelled_no_publish_witness :
    lintGo witC2inp = .cancelled ∧
    publishes "file:///x.py" (lintGo witC2inp) = [] ∧
    lastPubAfter witC2inp = witC2inp.lastPub := by
  exact c2_cancelled_no_publish witC2inp docF "/x.py" [] witC2run []
    (by decide) (by decide) (by decide) (by simp) (by decide) "file:///x.py"

theorem aLookup_mem {α : Type} : ∀ (m : List (String × α)) (k : String) (v : α),
    aLookup m k = some v → (k, v) ∈ m := by
  intro m k v
  induction m with
  | nil => intro h; simp [aLookup] at h
  | cons p rest ih =>
    intro h
    simp only [aLookup] at h
    split at h
    · next hp =>
      rw [Option.some.injEq] at h
      subst h
      rw [← hp]
      exact List.mem_cons_self _ _
    · exact List.mem_cons_of_mem _ (ih h)

theorem mSeed_lookup_other (m : DiagMap) (u p : DocumentURI) (hne : u ≠ p) :
    aLookup (mSeed m u) p = aLookup m p := by
  induction m with
  | nil => simp [mSeed, aLookup, hne]
  | cons q rest ih =>
    by_cases hq : q.1 = u
    · simp [mSeed, hq]
    · simp only [mSeed, if_neg hq, aLookup]
      by_cases hqp : q.1 = p
      · simp [hqp]
      · simp [hqp, ih]

theorem mSeed_lookup_self (m : DiagMap) (p : DocumentURI) :
    aLookup (mSeed m p) p = some ((aLookup m p).getD []) := by
  induction m with
  | nil => simp [mSeed, aLookup]
  | cons q rest ih =>
    by_cases hq : q.1 = p
    · simp [mSeed, hq, aLookup]
    · simp [mSeed, hq, aLookup, ih]

theorem seedAll_lookup_some (uris : List DocumentURI) :
    ∀ (m : DiagMap) (p : DocumentURI) (v : List Diagnostic),
      aLookup m p = some v → aLookup (seedAll m uris) p = some v := by
  induction uris with
  | nil => intro m p v h; exact h
  | cons u rest ih =>
    intro m p v h
    simp only [seedAll, List.foldl_cons]
    by_cases hup : u = p
    · subst hup
      refine ih (mSeed m u) u v ?_
      rw [mSeed_lookup_self, h]
      rfl
    · exact ih _ p v (by rw [mSeed_lookup_other m u p hup]; exact h)

theorem seedAll_lookup_mem (uris : List DocumentURI) :
    ∀ (m : DiagMap) (p : DocumentURI), p ∈ uris → aLookup m p = none →
      aLookup (seedAll m uris) p = some [] := by
  induction uris with
  | nil => intro m p h; simp at h
  | cons u rest ih =>
    intro m p hmem h
    simp only [seedAll, List.foldl_cons]
    by_cases hup : u = p
    · subst hup
      refine seedAll_lookup_some rest (mSeed m u) u [] ?_
      rw [mSeed_lookup_self, h]
      rfl
    · have hmem2 : p ∈ rest := by
        rcases List.mem_cons.mp hmem with h2 | h2
        · exact absurd h2.symm hup
        · exact h2
      exact ih _ p hmem2 (by rw [mSeed_lookup_other m u p hup]; exact h)

theorem mAppend_lookup_other (m : DiagMap) (u p : DocumentURI)
    (d : Diagnostic) (hne : u ≠ p) :
    aLookup (mAppend m u d) p = aLookup m p := by
  induction m with
  | nil => simp [mAppend, aLookup, hne]
  | cons q rest ih =>
    by_cases hq : q.1 = u
    · simp only [mAppend, if_pos hq, aLookup]
      by_cases hqp : q.1 = p
      · exact absurd (hq ▸ hqp) hne
      · simp [hqp]
    · simp only [mAppend, if_neg hq, aLookup]
      by_cases hqp : q.1 = p
      · simp [hqp]
      · simp [hqp, ih]

theorem foldAppend_lookup_other (kept : List (DocumentURI × Diagnostic)) :
    ∀ (m : DiagMap) (p : DocumentURI), p ∉ kept.map (fun x => x.1) →
      aLookup (kept.foldl (fun acc q => mAppend acc q.1 q.2) m) p = aLookup m p := by
  induction kept with
  | nil => intro m p _; rfl
  | cons q rest ih =>
    intro m p hnm
    simp only [List.map_cons, List.mem_cons, not_or] at hnm
    simp only [List.foldl_cons]
    rw [ih _ p hnm.2, mAppend_lookup_other m q.1 p q.2 (fun h => hnm.1 h.symm)]

theorem pubInsert_mem (pubs : List DocumentURI) (v u : DocumentURI) :
    u ∈ pubInsert pubs v ↔ u ∈ pubs ∨ u = v := by
  unfold pubInsert
  by_cases hv : v ∈ pubs
  · simp only [if_pos hv]
    constructor
    · exact Or.inl
    · rintro (h | h)
      · exact h
      · rw [h]; exact hv
  · simp [if_neg hv]

theorem foldPubInsert_mem (l : List DocumentURI) :
    ∀ (pubs : List DocumentURI) (u : DocumentURI),
      u ∈ l.foldl pubInsert pubs ↔ u ∈ pubs ∨ u ∈ l := by
  induction l with
  | nil => intro pubs u; simp
  | cons v rest ih =>
    intro pubs u
    simp only [List.foldl_cons]
    rw [ih]
    rw [pubInsert_mem]
    simp only [List.mem_cons]
    tauto

theorem specWS_cons (f : File) (fname : String) (uri : DocumentURI)
    (cwd : String) (c : CfgRun) (rest : List CfgRun) :
    specWorkspaceURIs f fname uri cwd (c :: rest) =
      (if executedNormally c && c.cfg.lintWorkspace then
        entryURIsOfCfg f fname uri cwd c else []) ++
      specWorkspaceURIs f fname uri cwd rest := by
  simp only [specWorkspaceURIs, List.filter_cons]
  split
  · simp [List.flatMap_cons]
  · simp

theorem specAll_cons (f : File) (fname : String) (uri : DocumentURI)
    (cwd : String) (c : CfgRun) (rest : List CfgRun) :
    specAllEntryURIs f fname uri cwd (c :: rest) =
      (if executedNormally c then entryURIsOfCfg f fname uri cwd c else []) ++
      specAllEntryURIs f fname uri cwd rest := by
  simp only [specAllEntryURIs, List.filter_cons]
  split
  · simp [List.flatMap_cons]
  · simp

theorem lintLoop_spec (f : File) (fname : String) (uri : DocumentURI)
    (lastPubLang : List DocumentURI) (cwd : String) :
    ∀ (cfgs : List CfgRun) (m : DiagMap) (pubs : List DocumentURI),
      (∀ c ∈ cfgs, cfgPasses f fname uri cwd c = true) →
      ∃ m' pubs',
        lintLoop f fname uri lastPubLang cwd cfgs m pubs = .ok m' pubs' ∧
        (∀ u, u ∈ pubs' ↔ u ∈ pubs ∨ u ∈ specWorkspaceURIs f fname uri cwd cfgs) ∧
        (∀ p, p ∈ lastPubLang → p ∉ specAllEntryURIs f fname uri cwd cfgs →
          (aLookup m p = some [] ∨ (aLookup m p = none ∧
            ∃ c ∈ cfgs, c.cfg.lintWorkspace = true ∧ installSkipped c = false)) →
          aLookup m' p = some []) := by
  intro cfgs
  induction cfgs with
  | nil =>
    intro m pubs _
    refine ⟨m, pubs, rfl, ?_, ?_⟩
    · intro u
      simp [specWorkspaceURIs]
    · intro p _ _ hd
      rcases hd with h | ⟨_, ⟨c, hc, _⟩⟩
      · exact h
      · simp at hc
  | cons c rest ih =>
    intro m pubs hpass
    have hcp : installSkipped c = true ∨ c.cfg.lintCommand = "" ∨
        (c.formatsValid = true ∧ ¬ c.procRes.exitCode < 0 ∧
          ((c.procRes.exitCode = 0 ∧ ¬ c.cfg.lintIgnoreExitCode = true) ∨
            (runCfgEntries c.cfg f fname uri c.rootPath cwd c.entries).isSome = true)) := by
      simpa [cfgPasses] using hpass c (List.mem_cons_self _ _)
    have hrest : ∀ x ∈ rest, cfgPasses f fname uri cwd x = true :=
      fun x hx => hpass x (List.mem_cons_of_mem _ hx)
    by_cases hsk : installSkipped c = true
    · -- availability-skipped: nothing changes, c is not executed
      have hexec : executedNormally c = false := by
        simp [executedNormally, hsk]
      obtain ⟨m', pubs', heq, h1, h2⟩ := ih m pubs hrest
      refine ⟨m', pubs', ?_, ?_, ?_⟩
      · unfold lintLoop
        rw [if_pos hsk]
        exact heq
      · intro u
        rw [h1 u, specWS_cons]
        simp [hexec]
      · intro p hmem hall hd
        rw [specAll_cons] at hall
        simp only [hexec, if_false, List.nil_append] at hall
        refine h2 p hmem hall ?_
        rcases hd with h | ⟨hn, ⟨c', hc', hw⟩⟩
        · exact Or.inl h
        · rcases List.mem_cons.mp hc' with rfl | hc2
          · rw [hsk] at hw
            exact absurd hw.2 (by simp)
          · exact Or.inr ⟨hn, c', hc2, hw⟩
    · -- not skipped: the workspace seeding (m1) happens if the recipe is
      -- workspace-scoped
      have hm1 : ∀ p, p ∈ lastPubLang →
          (aLookup m p = some [] ∨ (aLookup m p = none ∧
            ∃ c' ∈ c :: rest, c'.cfg.lintWorkspace = true ∧ installSkipped c' = false)) →
          (aLookup (if c.cfg.lintWorkspace then seedAll m lastPubLang else m) p = some [] ∨
            (aLookup (if c.cfg.lintWorkspace then seedAll m lastPubLang else m) p = none ∧
              ∃ c' ∈ rest, c'.cfg.lintWorkspace = true ∧ installSkipped c' = false)) := by
        intro p hmem hd
        by_cases hw : c.cfg.lintWorkspace = true
        · rw [if_pos hw]
          rcases hd with h | ⟨hn, _⟩
          · exact Or.inl (seedAll_lookup_some lastPubLang m p [] h)
          · exact Or.inl (seedAll_lookup_mem lastPubLang m p hmem hn)
        · rw [if_neg hw]
          rcases hd with h | ⟨hn, ⟨c', hc', hw'⟩⟩
          · exact Or.inl h
          · rcases List.mem_cons.mp hc' with rfl | hc2
            · exact absurd hw'.1 hw
            · exact Or.inr ⟨hn, c', hc2, hw'⟩
      by_cases hcmd : c.cfg.lintCommand = ""
      · -- empty command: seeded then skipped, not executed
        have hexec : executedNormally c = false := by
          simp [executedNormally, hcmd]
        obtain ⟨m', pubs', heq, h1, h2⟩ :=
          ih (if c.cfg.lintWorkspace then seedAll m lastPubLang else m) pubs hrest
        refine ⟨m', pubs', ?_, ?_, ?_⟩
        · unfold lintLoop
          rw [if_neg hsk]
          dsimp only
          rw [if_pos hcmd]
          exact heq
        · intro u
          rw [h1 u, specWS_cons]
          simp [hexec]
        · intro p hmem hall hd
          rw [specAll_cons] at hall
          simp only [hexec, if_false, List.nil_append] at hall
          exact h2 p hmem hall (hm1 p hmem hd)
      · rcases hcp with hcp | hcp | ⟨hfmt, hnk, hcase⟩
        · exact absurd hcp hsk
        · exact absurd hcp hcmd
        · by_cases hz : c.procRes.exitCode = 0 ∧ ¬ c.cfg.lintIgnoreExitCode = true
          · -- unexpected zero exit: seeded then skipped, not executed
            have hexec : executedNormally c = false := by
              simp only [executedNormally]
              simp only [decide_eq_false_iff_not]
              intro hcon
              exact hcon.2.2.2.2 hz
            obtain ⟨m', pubs', heq, h1, h2⟩ :=
              ih (if c.cfg.lintWorkspace then seedAll m lastPubLang else m) pubs hrest
            refine ⟨m', pubs', ?_, ?_, ?_⟩
            · unfold lintLoop
              rw [if_neg hsk]
              dsimp only
              rw [if_neg hcmd, if_neg (by simp [hfmt]), if_neg hnk, if_pos hz]
              exact heq
            · intro u
              rw [h1 u, specWS_cons]
              simp [hexec]
            · intro p hmem hall hd
              rw [specAll_cons] at hall
              simp only [hexec, if_false, List.nil_append] at hall
              exact h2 p hmem hall (hm1 p hmem hd)
          · -- the recipe executes normally
            rcases hcase with hzero | hsome
            · exact absurd hzero hz
            obtain ⟨kept, hkept⟩ := Option.isSome_iff_exists.mp hsome
            have hexec : executedNormally c = true := by
              simp only [executedNormally]
              simp only [decide_eq_true_eq]
              refine ⟨by simpa using hsk, hcmd, by simpa using hfmt, hnk, hz⟩
            have hents : entryURIsOfCfg f fname uri cwd c = kept.map (fun x => x.1) := by
              simp [entryURIsOfCfg, hkept]
            obtain ⟨m', pubs', heq, h1, h2⟩ :=
              ih (kept.foldl (fun acc q => mAppend acc q.1 q.2)
                   (if c.cfg.lintWorkspace then seedAll m lastPubLang else m))
                 (if c.cfg.lintWorkspace then
                   kept.foldl (fun acc q => pubInsert acc q.1) pubs else pubs) hrest
            refine ⟨m', pubs', ?_, ?_, ?_⟩
            · unfold lintLoop
              rw [if_neg hsk]
              dsimp only
              rw [if_neg hcmd, if_neg (by simp [hfmt]), if_neg hnk, if_neg hz, hkept]
              exact heq
            · intro u
              have hfold : u ∈ kept.foldl (fun acc q => pubInsert acc q.1) pubs ↔
                  u ∈ pubs ∨ u ∈ kept.map (fun x => x.1) := by
                rw [show kept.foldl (fun acc q => pubInsert acc q.1) pubs =
                    (kept.map (fun x => x.1)).foldl pubInsert pubs from
                  (List.foldl_map _ _ _ _).symm]
                exact foldPubInsert_mem _ pubs u
              rw [h1 u, specWS_cons]
              by_cases hw : c.cfg.lintWorkspace = true
              · simp only [hw, hexec, if_true, Bool.and_self, hents, if_pos,
                  List.mem_append, hfold]
                tauto
              · have hw2 : c.cfg.lintWorkspace = false := by simpa using hw
                simp only [hw2, hexec, Bool.and_false, if_false, List.nil_append,
                  Bool.false_eq_true]
            · intro p hmem hall hd
              rw [specAll_cons] at hall
              simp only [hexec, if_true, List.mem_append, not_or, hents] at hall
              refine h2 p hmem hall.2 ?_
              have hother := foldAppend_lookup_other kept
                (if c.cfg.lintWorkspace then seedAll m lastPubLang else m) p hall.1
              rcases hm1 p hmem hd with h | ⟨hn, hex⟩
              · exact Or.inl (by rw [hother]; exact h)
              · exact Or.inr ⟨by rw [hother]; exact hn, hex⟩

/-- C3 counterexample: the sole (workspace) recipe has `checkInstalled` set,
the probe fails and there is no install command, so the recipe is skipped
**before** the stale-URI seeding: although a recipe with `lintWorkspace` is
configured and `file:///b.md` was published by the previous run and receives
no entry now, no empty diagnostic list is published for it (and
`lastPublishedURIs` is still overwritten). -/
theorem c3_counterexample :
    (filterLintCfgs cexC3inp.evt ((aLookup cexC3inp.configs "markdown").getD [])
      ((aLookup cexC3inp.configs wildcard).getD [])).any
        (fun c => c.cfg.lintWorkspace) = true ∧
    "file:///b.md" ∈ (aLookup cexC3inp.lastPub "markdown").getD [] ∧
    publishes "file:///a.md" (lintGo cexC3inp) = [("file:///a.md", [])] ∧
    ("file:///b.md", ([] : List Diagnostic)) ∉
      publishes "file:///a.md" (lintGo cexC3inp) := by
  refine ⟨by decide, by decide, by decide, by decide⟩

/-- C3 (amended): for a lint run in which **at least one `lintWorkspace`
recipe passes its availability check** and every surviving recipe runs to
completion (no kill, no errorformat error, no category-map panic): every
URI of `lastPublishedURIs[languageId]` that receives no diagnostic entry in
the current run is published with an empty diagnostic list, and afterwards
`lastPublishedURIs[languageId]` equals exactly the set of URIs for which
the current run emitted at least one workspace diagnostic. -/
theorem c3_stale_clearing (inp : LintInput) (f : File) (fname0 : String)
    (cfgs : List CfgRun)
    (hf : aLookup inp.files inp.uri = some f)
    (hu : fromURIm inp.uri = some fname0)
    (hcfgs : filterLintCfgs inp.evt ((aLookup inp.configs f.languageID).getD [])
        ((aLookup inp.configs wildcard).getD []) = cfgs)
    (hne : cfgs ≠ [])
    (hpass : ∀ c ∈ cfgs, cfgPasses f (goToSlash fname0) inp.uri inp.cwd c = true)
    (hws : ∃ c ∈ cfgs, (c.cfg.lintWorkspace = true ∧ installSkipped c = false)) :
    (∀ p, p ∈ (aLookup inp.lastPub f.languageID).getD [] →
      p ∉ specAllEntryURIs f (goToSlash fname0) inp.uri inp.cwd cfgs →
      p ≠ "file:" →
      (p, ([] : List Diagnostic)) ∈ publishes inp.uri (lintGo inp)) ∧
    (∀ u, u ∈ (aLookup (lastPubAfter inp) f.languageID).getD [] ↔
      u ∈ specWorkspaceURIs f (goToSlash fname0) inp.uri inp.cwd cfgs) := by
  obtain ⟨m', pubs', heq, h1, h2⟩ := lintLoop_spec f (goToSlash fname0) inp.uri
    ((aLookup inp.lastPub f.languageID).getD []) inp.cwd cfgs
    [(inp.uri, [])] [] hpass
  have hany : cfgs.any (fun c => c.cfg.lintWorkspace) = true := by
    obtain ⟨c, hc, hw, _⟩ := hws
    exact List.any_eq_true.mpr ⟨c, hc, hw⟩
  have hmain : lintGo inp = .ok m' (aSet inp.lastPub f.languageID pubs') := by
    unfold lintGo
    rw [hf, hu]
    dsimp only
    rw [hcfgs, if_neg hne, heq]
    dsimp only
    rw [if_pos hany]
  constructor
  · intro p hp hnall hnfile
    have hd : aLookup [(inp.uri, ([] : List Diagnostic))] p = some [] ∨
        (aLookup [(inp.uri, ([] : List Diagnostic))] p = none ∧
          ∃ c ∈ cfgs, c.cfg.lintWorkspace = true ∧ installSkipped c = false) := by
      by_cases hpu : inp.uri = p
      · left
        simp [aLookup, hpu]
      · right
        exact ⟨by simp [aLookup, hpu], hws⟩
    have hm' : aLookup m' p = some [] := h2 p hp hnall hd
    have hmem : (p, ([] : List Diagnostic)) ∈ m' := aLookup_mem m' p [] hm'
    rw [hmain]
    unfold publishes
    refine List.mem_map.mpr ⟨(p, []), hmem, ?_⟩
    simp [hnfile]
  · intro u
    have hlp : lastPubAfter inp = aSet inp.lastPub f.languageID pubs' := by
      unfold lastPubAfter
      rw [hmain]
    rw [hlp, aLookup_aSet_self]
    simp only [Option.getD_some]
    rw [h1 u]
    simp

/-- C3 witness: prior URIs `a.md`, `b.md`; the workspace recipe emits one
entry for `a.md` only — `b.md` is published with an empty list, and the new
`lastPublishedURIs` is exactly the set of workspace-diagnostic URIs. -/
theorem c3_stale_clearing_witness :
    ("file:///b.md", ([] : List Diagnostic)) ∈
      publishes "file:///a.md" (lintGo witC3inp) ∧
    ("file:///c.md" ∈ (aLookup (lastPubAfter witC3inp) "markdown").getD [] ↔
      "file:///c.md" ∈ specWorkspaceURIs ⟨"markdown", "", 1⟩ "/a.md"
        "file:///a.md" "/" [witC3run]) := by
  have h := c3_stale_clearing witC3inp ⟨"markdown", "", 1⟩ "/a.md" [witC3run]
    (by decide) (by decide) (by decide) (by decide) (by decide)
    ⟨witC3run, by decide, by decide, by decide⟩
  exact ⟨h.1 "file:///b.md" (by decide) (by decide) (by decide),
    h.2 "file:///c.md"⟩

/-- C4 counterexample: when zero recipes with a non-empty `formatCommand`
survive filtering, `rangeFormatting` returns `(nil, nil)` — no edits and
**no error** (handle_text_document_formatting.go:102), not the claimed
"not supported" error. -/
theorem c4_counterexample :
    rangeFormatting cexC4inp = .noConfigs ∧
    formatReturnsError .noConfigs = false := by
  exact ⟨by decide, rfl⟩

/-- C4 (amended): with zero surviving format recipes the operation returns
no edits and a nil error (`noConfigs`); the "not supported" error is
returned exactly when at least one recipe survives filtering but no
recipe's run produces output. -/
theorem c4_zero_formatters (inp : FormatInput) (f : File) (fname : String)
    (hf : aLookup inp.files inp.uri = some f)
    (hu : fromURIm inp.uri = some fname) :
    (filterFormatCfgs ((aLookup inp.configs f.languageID).getD [])
        ((aLookup inp.configs wildcard).getD []) = [] →
      rangeFormatting inp = .noConfigs) ∧
    (∀ cfgs, cfgs = filterFormatCfgs ((aLookup inp.configs f.languageID).getD [])
        ((aLookup inp.configs wildcard).getD []) → cfgs ≠ [] →
      (formatLoop inp.optionsNonEmpty inp.optionsRegexOk cfgs f.text false).2 = false →
      rangeFormatting inp = .notSupported) := by
  constructor
  · intro hempty
    unfold rangeFormatting
    rw [hf, hu]
    dsimp only
    rw [if_pos hempty]
  · intro cfgs hcfgs hne hloop
    unfold rangeFormatting
    rw [hf, hu]
    dsimp only
    rw [if_neg (by rw [← hcfgs]; exact hne)]
    rw [← hcfgs, hloop]
    simp

/-- C4 witness: the empty-filter request returns the error-free
`noConfigs`, and a request whose one surviving recipe fails returns the
"not supported" error. -/
theorem c4_zero_formatters_witness :
    rangeFormatting cexC4inp = .noConfigs ∧
    rangeFormatting witC4inp = .notSupported := by
  constructor
  · exact (c4_zero_formatters cexC4inp ⟨"lua", "abc", 1⟩ "/a.lua"
      (by decide) (by decide)).1 (by decide)
  · exact (c4_zero_formatters witC4inp ⟨"lua", "abc", 1⟩ "/a.lua"
      (by decide) (by decide)).2 _ rfl (by decide) (by decide)

/-! ### Identity of the substitution passes on `$\x7b`-free strings (for C9) -/

/-- `stripPlaceholdersF` leaves a `"$\x7b"`-free string unchanged. -/
theorem stripPlaceholdersF_id :
    ∀ fuel s, containsSub s ['$', '{'] = false → stripPlaceholdersF fuel s = s := by
  intro fuel
  induction fuel with
  | zero => intro s _; cases s <;> rfl
  | succ n ih =>
    intro s hdb
    cases s with
    | nil => rfl
    | cons c rest =>
      simp only [containsSub, Bool.or_eq_false_iff] at hdb
      have hno : ¬ (c = '$' ∧ rest.head? = some '{') := by
        rintro ⟨hc, hh⟩
        subst hc
        cases rest with
        | nil => simp at hh
        | cons c2 r2 =>
          simp only [List.head?_cons, Option.some.injEq] at hh
          subst hh
          simp [List.isPrefixOf] at hdb
      simp only [stripPlaceholdersF, if_neg hno]
      rw [ih rest hdb.2]

/-- `bindScanF` leaves a `"$\x7b"`-free string unchanged. -/
theorem bindScanF_id (a : Char → Bool) (sep : List Char) (r : List Char → List Char) :
    ∀ fuel s, containsSub s ['$', '{'] = false → bindScanF a sep r fuel s = s := by
  intro fuel
  induction fuel with
  | zero => intro s _; cases s <;> rfl
  | succ n ih =>
    intro s hdb
    cases s with
    | nil => rfl
    | cons c rest =>
      simp only [containsSub, Bool.or_eq_false_iff] at hdb
      have hno : ¬ (c = '$' ∧ rest.head? = some '{') := by
        rintro ⟨hc, hh⟩
        subst hc
        cases rest with
        | nil => simp at hh
        | cons c2 r2 =>
          simp only [List.head?_cons, Option.some.injEq] at hh
          subst hh
          simp [List.isPrefixOf] at hdb
      simp only [bindScanF, if_neg hno]
      rw [ih rest hdb.2]

/-- `replaceAllF` with a pattern starting in `"$\x7b"` leaves a
`"$\x7b"`-free string unchanged. -/
theorem replaceAllF_id (ptail rep : List Char) :
    ∀ fuel s, containsSub s ['$', '{'] = false →
      replaceAllF ('$' :: '{' :: ptail) rep fuel s = s := by
  intro fuel
  induction fuel with
  | zero => intro s _; cases s <;> rfl
  | succ n ih =>
    intro s hdb
    cases s with
    | nil => rfl
    | cons c rest =>
      simp only [containsSub, Bool.or_eq_false_iff] at hdb
      have hno : ¬ (('$' :: '{' :: ptail).isPrefixOf (c :: rest) = true ∧
          ('$' :: '{' :: ptail) ≠ []) := by
        rintro ⟨hpre, -⟩
        have h2 : ['$', '{'] <+: (c :: rest) :=
          List.IsPrefix.trans ⟨ptail, rfl⟩ (List.isPrefixOf_iff_prefix.mp hpre)
        rw [← List.isPrefixOf_iff_prefix] at h2
        rw [h2] at hdb
        exact absurd hdb.1 (by simp)
      simp only [replaceAllF, if_neg hno]
      rw [ih rest hdb.2]

theorem stripPlaceholders_id (s : List Char)
    (h : containsSub s ['$', '{'] = false) : stripPlaceholders s = s :=
  stripPlaceholdersF_id s.length s h

theorem bindScan_id (a : Char → Bool) (sep : List Char)
    (r : List Char → List Char) (s : List Char)
    (h : containsSub s ['$', '{'] = false) : bindScan a sep r s = s :=
  bindScanF_id a sep r s.length s h

theorem goReplaceAll_id (s pat rep : String)
    (hpat : ∃ ptail, pat.data = '$' :: '{' :: ptail)
    (h : containsSub s.data ['$', '{'] = false) : goReplaceAll s pat rep = s := by
  obtain ⟨ptail, hp⟩ := hpat
  unfold goReplaceAll replaceAll
  rw [hp, replaceAllF_id ptail rep.data s.data.length s.data h]

theorem applyOption_id (name : String) (v : OptVal) (s : List Char)
    (h : containsSub s ['$', '{'] = false) : applyOption s name v = s := by
  cases v with
  | other str =>
    simp only [applyOption]
    rw [bindScan_id _ _ _ s h, bindScan_id _ _ _ s h]
  | boolean b =>
    cases b <;> simp only [applyOption] <;>
      rw [bindScan_id _ _ _ s h, bindScan_id _ _ _ s h]

theorem applyRangeOption_id (name : String) (v : Int) (s : List Char)
    (h : containsSub s ['$', '{'] = false) : applyRangeOption s name v = s := by
  simp only [applyRangeOption]
  rw [bindScan_id _ _ _ s h, bindScan_id _ _ _ s h]

theorem applyOptions_fold_id (options : List (String × OptVal)) (s : List Char)
    (h : containsSub s ['$', '{'] = false) :
    options.foldl (fun cmd p => applyOption cmd p.1 p.2) s = s := by
  induction options with
  | nil => rfl
  | cons o rest ih =>
    simp only [List.foldl_cons]
    rw [applyOption_id o.1 o.2 s h]
    exact ih

theorem applyRangeOptions_fold_id (ropts : List (String × Int)) (s : List Char)
    (h : containsSub s ['$', '{'] = false) :
    ropts.foldl (fun cmd p => applyRangeOption cmd p.1 p.2) s = s := by
  induction ropts with
  | nil => rfl
  | cons o rest ih =>
    simp only [List.foldl_cons]
    rw [applyRangeOption_id o.1 o.2 s h]
    exact ih

theorem replaceCommandInputFilename_id (cmd fname rootPath : String)
    (h : containsSub cmd.data ['$', '{'] = false) :
    replaceCommandInputFilename cmd fname rootPath = cmd := by
  unfold replaceCommandInputFilename
  dsimp only
  rw [goReplaceAll_id _ _ _ ⟨_, rfl⟩ h, goReplaceAll_id _ _ _ ⟨_, rfl⟩ h,
    goReplaceAll_id _ _ _ ⟨_, rfl⟩ h, goReplaceAll_id _ _ _ ⟨_, rfl⟩ h]

/-- The whole pipeline leaves a `"$\x7b"`-free string unchanged. -/
theorem substitutePipeline_id (fname rootPath : String)
    (options : List (String × OptVal)) (rng : Option RangeParams)
    (text s : String) (h : containsSub s.data ['$', '{'] = false) :
    substitutePipeline fname rootPath options rng text s = s := by
  unfold substitutePipeline
  rw [replaceCommandInputFilename_id s fname rootPath h]
  dsimp only
  rw [applyOptions_fold_id options s.data h]
  cases rng with
  | none =>
    dsimp only
    rw [stripPlaceholders_id s.data h]
  | some r =>
    dsimp only
    rw [applyRangeOptions_fold_id _ s.data h, stripPlaceholders_id s.data h]

/-- C9 counterexample: on the template `"$$\x7bq\x7d\x7br\x7d"` (with no
placeholders of its own for the literal pass and empty options) the final
strip removes `"$\x7bq\x7d"` and thereby splices together the **new**
placeholder `"$\x7br\x7d"`; a second application strips that too, so
substituting twice gives `""` ≠ `"$\x7br\x7d"` — substitution is not
idempotent. -/
theorem c9_counterexample :
    substitutePipeline "/a" "/" [] none "" "$$\x7bq\x7d\x7br\x7d" = "$\x7br\x7d" ∧
    substitutePipeline "/a" "/" [] none ""
        (substitutePipeline "/a" "/" [] none "" "$$\x7bq\x7d\x7br\x7d") = "" ∧
    ("" : String) ≠ "$\x7br\x7d" := by
  refine ⟨by decide, ?_, by decide⟩
  rw [show substitutePipeline "/a" "/" [] none "" "$$\x7bq\x7d\x7br\x7d" =
    "$\x7br\x7d" from by decide]
  decide

/-- C9 (amended): template substitution is idempotent **provided the first
application's result contains no `"$\x7b"`** — in general the final strip can
splice a new `$\x7b...\x7d` out of surrounding text, and a second
application removes it. -/
theorem c9_template_idempotent (fname rootPath : String)
    (options : List (String × OptVal)) (rng : Option RangeParams)
    (text t : String)
    (h : containsSub (substitutePipeline fname rootPath options rng text t).data
      ['$', '{'] = false) :
    substitutePipeline fname rootPath options rng text
        (substitutePipeline fname rootPath options rng text t) =
      substitutePipeline fname rootPath options rng text t :=
  substitutePipeline_id fname rootPath options rng text _ h

/-- C9 witness: `"echo $\x7bINPUT\x7d"` substitutes to `"echo /a/b.py"`,
which contains no `"$\x7b"`, and substituting again leaves it unchanged. -/
theorem c9_template_idempotent_witness :
    substitutePipeline "/a/b.py" "/a" [] none ""
        (substitutePipeline "/a/b.py" "/a" [] none "" "echo $\x7bINPUT\x7d") =
      substitutePipeline "/a/b.py" "/a" [] none "" "echo $\x7bINPUT\x7d" := by
  exact c9_template_idempotent "/a/b.py" "/a" [] none "" "echo $\x7bINPUT\x7d"
    (by decide)

end Efm

